import Mathlib

/-!
# Verification of thpp tensor serialization (`thpp/TensorSerialization.cpp`)

A shallow embedding of `thpp::detail::serialize` and the deserialization entry
points. The C++ operates on byte buffers (`folly::IOBuf`); we model a buffer as
a `List Nat` of byte values together with the two observable flags the engine
queries (`isChained`, `isManagedOne`). Machine-word subtleties that matter are
kept: the odometer counter is a `uint64_t` and is incremented modulo `2 ^ 64`.

The general (non-contiguous) path of `serialize` is a `while` loop whose
iteration count, on well-formed inputs, is bounded by the number of logical
elements; we model it as an explicit small-step function iterated a canonical
number of steps that provably suffices for every input whose dimension sizes
are all positive (theorem material below). On pathological inputs with a
zero-size leading dimension the C++ loop wraps its 64-bit counter (on the
order of `2 ^ 64` iterations of out-of-bounds runs) unless the debug
assertion `DCHECK_LE(contiguousSize, dataSize)` aborts first; the model
reports the assertion as an error value, and fuel exhaustion as a distinct
error value.

Assertion failures (`CHECK`/`DCHECK`, fatal aborts in the C++) are modelled as
`Except.error` values, one constructor per distinct assertion site.
-/

set_option autoImplicit false

namespace Thpp

/-- `DecidableEq` for `Except`, so concrete runs of the model can be settled
by `decide`. -/
instance {ε α : Type} [DecidableEq ε] [DecidableEq α] : DecidableEq (Except ε α) := fun a b =>
  match a, b with
  | .ok x, .ok y => decidable_of_iff (x = y) (by simp)
  | .error e, .error f => decidable_of_iff (e = f) (by simp)
  | .ok _, .error _ => isFalse (by intro h; exact Except.noConfusion h)
  | .error _, .ok _ => isFalse (by intro h; exact Except.noConfusion h)

/-- thpp `SharingMode` (see `thpp/Storage.h` usage in `TensorSerialization.cpp`). -/
inductive SharingMode
  | SHARE_NONE
  | SHARE_IOBUF_MANAGED
  | SHARE_ALL
  deriving DecidableEq

/-- `ThriftTensorEndianness`: `NATIVE` plus the two resolved byte orders. -/
inductive ThriftTensorEndianness
  | NATIVE
  | LITTLE
  | BIG
  deriving DecidableEq

/-- The scalar-kind tag carried on the wire (`ThriftTensorDataType`); the
engine treats it opaquely, so a small closed enumeration suffices. -/
inductive ThriftTensorDataType
  | BYTE
  | INT32
  | INT64
  | FLOAT
  | DOUBLE
  deriving DecidableEq

/-- Model of a `folly::IOBuf` as seen by the serializer: its byte contents and
the two predicates the engine queries (`isChained`, `isManagedOne`). -/
structure IOBuf where
  chained : Bool
  managedOne : Bool
  bytes : List Nat
  deriving DecidableEq

/-- A default-constructed `folly::IOBuf()` (also the state of a moved-from
buffer): empty, unchained. -/
def emptyIOBuf : IOBuf := ⟨false, true, []⟩

/-- One contiguous run appended to the output chain, remembering whether it
was zero-copy aliased (`appender.insert` of a clone) or copied
(`appender.push`). The payload bytes are the same either way. -/
structure Chunk where
  shared : Bool
  bytes : List Nat
  deriving DecidableEq

/-- The wire record `ThriftTensor`; `data` is the output buffer chain. -/
structure ThriftTensor where
  dataType : ThriftTensorDataType
  endianness : ThriftTensorEndianness
  sizes : List Nat
  data : List Chunk
  deriving DecidableEq

/-- The flat payload bytes of a wire record (the chain, flattened). -/
def payloadBytes (t : ThriftTensor) : List Nat :=
  (t.data.map Chunk.bytes).flatten

/-- Read `len` bytes of `buf` starting at (signed) byte offset `off`.
In-bounds reads return the exact bytes; out-of-bounds positions (undefined
behaviour in the C++) are given the junk value `0`. -/
def sliceBytes (buf : List Nat) (off : Int) (len : Nat) : List Nat :=
  (List.range len).map (fun k : Nat => buf.getD (off + (k : Int)).toNat 0)

/-- `kMinCloneSize` (`4 << 10`): minimum run length, in bytes, for zero-copy
cloning in the general path. -/
def kMinCloneSize : Nat := 4 * 1024

/-- The contiguity scan of `serialize` (`TensorSerialization.cpp` lines
61-68): `k` is `firstContiguousDim + 1` (the loop variable plus one, so the
recursion is structural), `contig` is the running `contiguousSize` in
elements. Returns the final (post-increment) `firstContiguousDim` and
`contiguousSize`. -/
def contigScan (sizes : List Nat) (strides : List Int) : Nat → Nat → Nat × Nat
  | 0, contig => (0, contig)
  | k + 1, contig =>
    if strides.getD k 0 = (contig : Int) then
      contigScan sizes strides k (contig * sizes.getD k 0)
    else
      (k + 1, contig)

/-- The whole contiguity analysis (lines 59-79): empty `strides` means the
implicit row-major layout, one fully contiguous run. Returns
`(firstContiguousDim, contiguousSize-in-elements)`. -/
def computeContiguity (sizes : List Nat) (strides : List Int) : Nat × Nat :=
  if strides = [] then (0, sizes.prod)
  else contigScan sizes strides sizes.length 1

/-- The `mayShare` switch (lines 128-138). -/
def computeMayShare (sharing : SharingMode) (data : IOBuf) : Bool :=
  match sharing with
  | .SHARE_NONE => false
  | .SHARE_IOBUF_MANAGED => data.managedOne
  | .SHARE_ALL => true

/-- Whether an emitted run is zero-copy aliased (line 141):
`mayShare && contiguousSize >= kMinCloneSize`. -/
def emitShared (mayShare : Bool) (contiguousSize : Nat) : Bool :=
  mayShare && decide (kMinCloneSize ≤ contiguousSize)

/-- `uint64_t` modulus for the odometer counter entries. -/
def uint64Mod : Nat := 2 ^ 64

/-- State of the odometer loop of lines 139-158: the `idx` cursor (an `int`,
it reaches `-1`), the byte offset `src - data.data()`, the counter vector and
the chunks appended to `outQueue` so far. `done` is the state after the loop
exits, and is absorbing. -/
inductive OdoState
  | running (idx : Int) (srcOff : Int) (counter : List Nat) (acc : List Chunk)
  | done (chunks : List Chunk)
  | failed
  deriving DecidableEq

/-- One iteration of the `while (idx >= 0)` loop (lines 139-158). In the
shared-emit branch the code calls `partialCloneOne(data, src - data.data(),
contiguousSize)`, whose `DCHECK_LE(offset + length, buf.length())` (line 28)
aborts when the run is not inside the buffer; the `uint64_t` cast of a
negative pointer difference exceeds any buffer length, so the assertion
fails exactly when `srcOff < 0` or the run end passes the buffer end. The
copy branch (`appender.push`) performs no such check and reads out of
bounds (modelled as junk `0` bytes by `sliceBytes`). A failed assertion is
the absorbing `failed` state. -/
def odoStep (sizes : List Nat) (strides : List Int) (elementSize : Nat)
    (data : IOBuf) (contiguousSize : Nat) (firstContiguousDim : Nat)
    (mayShare : Bool) : OdoState → OdoState
  | .done cs => .done cs
  | .failed => .failed
  | .running idx srcOff counter acc =>
    if idx < 0 then .done acc
    else if idx = (firstContiguousDim : Int) then
      if emitShared mayShare contiguousSize = true
          ∧ (srcOff < 0 ∨ data.bytes.length < srcOff.toNat + contiguousSize) then
        .failed
      else
        let chunk : Chunk :=
          ⟨emitShared mayShare contiguousSize, sliceBytes data.bytes srcOff contiguousSize⟩
        .running (idx - 1) srcOff counter (acc ++ [chunk])
    else
      let i := idx.toNat
      let srcOff' := srcOff + strides.getD i 0 * (elementSize : Int)
      let c' := (counter.getD i 0 + 1) % uint64Mod
      if c' = sizes.getD i 0 then
        .running (idx - 1)
          (srcOff' - (sizes.getD i 0 : Int) * strides.getD i 0 * (elementSize : Int))
          (counter.set i 0) acc
      else
        .running (firstContiguousDim : Int) srcOff' (counter.set i c') acc

/-- Iterate the loop `fuel` times. -/
def odoRun (sizes : List Nat) (strides : List Int) (elementSize : Nat)
    (data : IOBuf) (contiguousSize : Nat) (firstContiguousDim : Nat)
    (mayShare : Bool) (fuel : Nat) (s : OdoState) : OdoState :=
  (odoStep sizes strides elementSize data contiguousSize firstContiguousDim mayShare)^[fuel] s

/-- Entry state of the loop: `idx = firstContiguousDim`, `src` at the start
of the buffer, zeroed counter (`counter.resize(firstContiguousDim)`). -/
def odoInit (firstContiguousDim : Nat) : OdoState :=
  .running (firstContiguousDim : Int) 0 (List.replicate firstContiguousDim 0) []

/-- A step bound that suffices for every run of the loop in which all leading
dimension sizes are positive (proved below); the fuel given to the iterated
step function. -/
def canonicalFuel (sizes : List Nat) (firstContiguousDim : Nat) : Nat :=
  ((sizes.take firstContiguousDim).prod + 1) * (firstContiguousDim + 2) + 2

/-- The whole general path: run the odometer from the entry state; `some`
chunks if the loop exits within the canonical fuel. The C++ loop on inputs
with a zero-size leading dimension keeps wrapping its 64-bit counter instead
of exiting promptly; the model reports `none` there. -/
def generalPathChunks (sizes : List Nat) (strides : List Int) (elementSize : Nat)
    (data : IOBuf) (contiguousElems : Nat) (firstContiguousDim : Nat)
    (mayShare : Bool) : Option (List Chunk) :=
  match odoRun sizes strides elementSize data (contiguousElems * elementSize)
      firstContiguousDim mayShare (canonicalFuel sizes firstContiguousDim)
      (odoInit firstContiguousDim) with
  | .done cs => some cs
  | _ => none


/-- Modelled from the spec: `detail::applySharingMode` lives in the thpp
storage code, which is not under `src/`. Per the spec (Serializer step 3 and
the buffer collaborator contract), when the mode permits sharing — always for
`ALL`, only for an exclusively owned buffer for `MANAGED_ONLY`, never for
`NONE` — the trimmed buffer is moved into the output zero-copy, otherwise its
bytes are copied; the payload bytes are identical either way. -/
def applySharingMode (bytes : List Nat) (managedOne : Bool) : SharingMode → Chunk
  | .SHARE_NONE => ⟨false, bytes⟩
  | .SHARE_IOBUF_MANAGED => ⟨managedOne, bytes⟩
  | .SHARE_ALL => ⟨true, bytes⟩

/-- The assertion sites of the engine, each a fatal abort in the C++
(`DCHECK`/`CHECK`), plus `fuelExhausted` for a loop that did not exit within
the canonical step bound (see `canonicalFuel`). -/
inductive SerializeError
  | chainedBuffer
  | nonNativeEndianness
  | strideLengthMismatch
  | contiguousExceedsData
  | shortBuffer
  | fuelExhausted
  | dataTypeMismatch
  | cloneOutOfRange
  deriving DecidableEq

/-- Result of a `serialize` call: the wire record written to `out`, and the
state the rvalue `data` buffer is left in when the call returns. -/
structure SerializeResult where
  out : ThriftTensor
  dataAfter : IOBuf
  deriving DecidableEq

/-- `partialCloneOne` (lines 25-33): clone a byte range of a single buffer;
`DCHECK_LE(offset + length, buf.length())` guards the range. (The Lean name
differs from the C++ name for lexical reasons only.) -/
def cloneOneRange (buf : IOBuf) (offset length : Nat) : Except SerializeError (List Nat) :=
  if offset + length ≤ buf.bytes.length then
    .ok ((buf.bytes.drop offset).take length)
  else
    .error .cloneOutOfRange

/-- The general path's outcome as `serialize` reports it: the emitted chunks
on normal exit, `cloneOutOfRange` if a shared emit failed `partialCloneOne`'s
`DCHECK_LE`, `fuelExhausted` if the loop did not exit within the canonical
step bound. -/
def generalPathResult (sizes : List Nat) (strides : List Int) (elementSize : Nat)
    (data : IOBuf) (contiguousElems : Nat) (firstContiguousDim : Nat)
    (mayShare : Bool) : Except SerializeError (List Chunk) :=
  match odoRun sizes strides elementSize data (contiguousElems * elementSize)
      firstContiguousDim mayShare (canonicalFuel sizes firstContiguousDim)
      (odoInit firstContiguousDim) with
  | .done cs => .ok cs
  | .failed => .error .cloneOutOfRange
  | .running _ _ _ _ => .error .fuelExhausted

/-- `thpp::detail::serialize` (lines 37-161). `machineEndianness` stands for
the global `gMachineEndianness` (never `NATIVE` at runtime). The caller has
already trimmed the storage offset off the front of `data`
(`Tensor<T>::serialize` in `TensorBase.h`), so the base offset here is 0. -/
def serialize (machineEndianness : ThriftTensorEndianness)
    (sizes : List Nat) (strides : List Int) (data : IOBuf)
    (dtype : ThriftTensorDataType) (elementSize : Nat)
    (endianness : ThriftTensorEndianness) (sharing : SharingMode) :
    Except SerializeError SerializeResult :=
  if data.chained then .error .chainedBuffer else
  let resolvedEndianness := if endianness = .NATIVE then machineEndianness else endianness
  if resolvedEndianness ≠ machineEndianness then .error .nonNativeEndianness else
  let ndims := sizes.length
  if strides ≠ [] ∧ strides.length ≠ ndims then .error .strideLengthMismatch else
  let fc := computeContiguity sizes strides
  let firstContiguousDim := fc.1
  let contiguousElems := fc.2
  let dataSize := contiguousElems * (sizes.take firstContiguousDim).prod * elementSize
  let contiguousSize := contiguousElems * elementSize
  if dataSize < contiguousSize then .error .contiguousExceedsData else
  let outBase : ThriftTensor := ⟨dtype, resolvedEndianness, sizes, []⟩
  if ndims = 0 then
    .ok ⟨outBase, emptyIOBuf⟩
  else if firstContiguousDim = 0 then
    if data.bytes.length < dataSize then .error .shortBuffer else
    .ok ⟨{ outBase with
           data := [applySharingMode (data.bytes.take dataSize) data.managedOne sharing] },
         emptyIOBuf⟩
  else
    match generalPathResult sizes strides elementSize data contiguousElems
        firstContiguousDim (computeMayShare sharing data) with
    | .ok chunks => .ok ⟨{ outBase with data := chunks }, data⟩
    | .error e => .error e

/-- Modelled from the spec: the body of `detail::deserialize` is in
`TensorSerialization-inl.h`, not under `src/` (only its declaration and
explicit instantiation are). Per the spec's Deserializer section it validates
the data-type tag (mismatch is a fatal contract violation) and returns the
payload bytes unchanged. -/
def deserialize (t : ThriftTensor) (dtype : ThriftTensorDataType) :
    Except SerializeError (List Nat) :=
  if t.dataType = dtype then .ok (payloadBytes t) else .error .dataTypeMismatch

/-- The tensor object rebuilt from a wire record, as far as the fields fixed
by `Tensor<T>::deserializeTH` (`TensorBase.h`): the deserialized flat buffer
as storage, and the literal arguments of
`Ops::_newWithStorage(data.th(), 0, s.th(), nullptr)` — storage offset `0`,
the wire sizes, and a null (implicit row-major) strides argument. -/
structure THTensorModel where
  storageBytes : List Nat
  storageOffset : Nat
  sizes : List Nat
  strides : Option (List Int)
  deriving DecidableEq

/-- `Tensor<T>::deserializeTH` (`TensorBase.h` lines 266-276). The sharing
mode only affects how the storage buffer is adopted, not any field modelled
here. -/
def deserializeTH (t : ThriftTensor) (dtype : ThriftTensorDataType)
    (_sharing : SharingMode) : Except SerializeError THTensorModel :=
  (deserialize t dtype).map fun payload => ⟨payload, 0, t.sizes, none⟩

/-! ## Specification-side definitions: the logical view and its row-major
flattening. These are the comparison points for the serializer: a strided
view addresses element `(i₀, …, i_{n-1})` at element offset `Σ i_d·stride_d`
of the backing buffer. -/

/-- Implicit row-major strides for a shape: suffix products. -/
def defaultStrides : List Nat → List Int
  | [] => []
  | _ :: ss => ((ss.prod : Nat) : Int) :: defaultStrides ss

/-- All index tuples of a shape, enumerated in row-major (lexicographic)
order. -/
def tuples : List Nat → List (List Nat)
  | [] => [[]]
  | s :: ss => (List.range s).flatMap fun i => (tuples ss).map (i :: ·)

/-- Element offset of an index tuple under given strides. -/
def viewOffset : List Int → List Nat → Int
  | st :: sts, c :: cs => (c : Int) * st + viewOffset sts cs
  | _, _ => 0

/-- Row-major flattening of a strided view rooted at byte offset `base`:
recursively concatenate the flattenings of the slices along the outermost
dimension; a rank-0 view is one element of `elementSize` bytes. -/
def rowMajorBytes (buf : List Nat) (elementSize : Nat) :
    List Nat → List Int → Int → List Nat
  | [], _, base => sliceBytes buf base elementSize
  | s :: ss, strides, base =>
    (List.range s).flatMap fun i =>
      rowMajorBytes buf elementSize ss strides.tail
        (base + (i : Int) * strides.headD 0 * (elementSize : Int))

/-- The strides actually in force: empty means implicit row-major. -/
def effectiveStrides (sizes : List Nat) (strides : List Int) : List Int :=
  if strides = [] then defaultStrides sizes else strides

/-- The logical content of a view as flat bytes. `ndims == 0` is the empty
tensor (TH convention), not a scalar. -/
def logicalBytes (buf : List Nat) (elementSize : Nat)
    (sizes : List Nat) (strides : List Int) : List Nat :=
  if sizes = [] then [] else
    rowMajorBytes buf elementSize sizes (effectiveStrides sizes strides) 0

/-- The view is consistent with its single contiguous backing buffer: every
logical element's byte range lies inside the buffer. -/
def viewInBounds (bufLen : Nat) (elementSize : Nat)
    (sizes : List Nat) (strides : List Int) : Prop :=
  ∀ c ∈ tuples sizes,
    0 ≤ viewOffset (effectiveStrides sizes strides) c ∧
    (viewOffset (effectiveStrides sizes strides) c + 1) * (elementSize : Int) ≤ (bufLen : Int)

instance (bufLen elementSize : Nat) (sizes : List Nat) (strides : List Int) :
    Decidable (viewInBounds bufLen elementSize sizes strides) := by
  unfold viewInBounds; infer_instance

/-- An index tuple valid for a shape: componentwise below the sizes (implies
equal lengths). -/
def validTuple (sizes : List Nat) (c : List Nat) : Prop :=
  List.Forall₂ (fun a s => a < s) c sizes

/-- Row-major rank of a tuple: its position in `tuples sizes`. -/
def tupleRank : List Nat → List Nat → Nat
  | _ :: ss, a :: cs => a * ss.prod + tupleRank ss cs
  | _, _ => 0

/-- Strides that are exactly the implicit row-major suffix products for a
shape. -/
def contigStrides : List Nat → List Int → Prop
  | [], [] => True
  | _ :: ss, st :: sts => st = ((ss.prod : Nat) : Int) ∧ contigStrides ss sts
  | _, _ => False

/-- The chunk decomposition of a successful `serialize` payload, as bytes.
It does not mention the sharing mode: the mode only influences the chunks'
`shared` flags. -/
def chunkBytesSpec (sizes : List Nat) (strides : List Int) (elementSize : Nat)
    (bytes : List Nat) : List (List Nat) :=
  if sizes.length = 0 then []
  else if (computeContiguity sizes strides).1 = 0 then
    [bytes.take ((computeContiguity sizes strides).2
      * (sizes.take (computeContiguity sizes strides).1).prod * elementSize)]
  else
    (tuples (sizes.take (computeContiguity sizes strides).1)).map
      (fun t => sliceBytes bytes (viewOffset strides t * (elementSize : Int))
        ((computeContiguity sizes strides).2 * elementSize))

/-! ## Basic lemmas on byte slices -/

theorem length_sliceBytes (buf : List Nat) (off : Int) (len : Nat) :
    (sliceBytes buf off len).length = len := by
  simp [sliceBytes]

theorem sliceBytes_append (buf : List Nat) (off : Int) (a b : Nat) :
    sliceBytes buf off (a + b) = sliceBytes buf off a ++ sliceBytes buf (off + (a : Int)) b := by
  unfold sliceBytes
  rw [List.range_add, List.map_append, List.map_map]
  congr 1
  apply List.map_congr_left
  intro k _
  simp only [Function.comp_apply]
  congr 1
  push_cast
  omega

theorem flatMap_range_slice (buf : List Nat) (base : Int) (m : Nat) :
    ∀ s : Nat, (List.range s).flatMap (fun i => sliceBytes buf (base + (i : Int) * (m : Int)) m)
      = sliceBytes buf base (s * m) := by
  intro s
  induction s with
  | zero => simp [sliceBytes]
  | succ n ih =>
    rw [List.range_succ, List.flatMap_append, ih, Nat.succ_mul, sliceBytes_append]
    simp [Int.mul_comm]

theorem sliceBytes_eq_take (buf : List Nat) (n : Nat) (h : n ≤ buf.length) :
    sliceBytes buf 0 n = buf.take n := by
  apply List.ext_getElem
  · simp [length_sliceBytes, List.length_take, Nat.min_eq_left h]
  · intro i h₁ h₂
    simp only [sliceBytes, length_sliceBytes] at h₁ ⊢
    rw [List.getElem_map, List.getElem_range, List.getElem_take]
    have hi : i < n := by simpa using h₁
    have hb : i < buf.length := lt_of_lt_of_le hi h
    have ht : ((0 : Int) + (i : Int)).toNat = i := by omega
    rw [ht, List.getD_eq_getElem?_getD, List.getElem?_eq_getElem hb]
    rfl

/-! ## Lemmas on tuples, ranks, strides -/

theorem length_tuples : ∀ sizes : List Nat, (tuples sizes).length = sizes.prod := by
  intro sizes
  induction sizes with
  | nil => simp [tuples]
  | cons s ss ih =>
    simp only [tuples, List.length_flatMap, List.prod_cons]
    have : (List.map (List.length ∘ fun i => (tuples ss).map (i :: ·)) (List.range s))
        = List.replicate s (tuples ss).length := by
      rw [List.eq_replicate_iff]
      constructor
      · simp
      · intro b hb
        simp only [List.mem_map] at hb
        obtain ⟨i, _, hi⟩ := hb
        simp [← hi]
    rw [this, List.sum_replicate, smul_eq_mul, ih]

theorem validTuple_length {sizes c : List Nat} (h : validTuple sizes c) :
    c.length = sizes.length := h.length_eq

theorem tupleRank_lt_prod : ∀ {sizes c : List Nat}, validTuple sizes c →
    tupleRank sizes c < sizes.prod := by
  intro sizes
  induction sizes with
  | nil => intro c h; cases h; simp [tupleRank]
  | cons s ss ih =>
    intro c h
    cases h with
    | cons ha hcs =>
      rename_i a cs
      simp only [tupleRank, List.prod_cons]
      have h1 : tupleRank ss cs < ss.prod := ih hcs
      have h2 : a + 1 ≤ s := ha
      calc a * ss.prod + tupleRank ss cs < a * ss.prod + ss.prod := by omega
        _ = (a + 1) * ss.prod := by ring
        _ ≤ s * ss.prod := Nat.mul_le_mul_right _ h2

theorem flatMap_getElem_uniform {α β : Type} (f : α → List β) (B : Nat) :
    ∀ (l : List α) (i j : Nat), (∀ x ∈ l, (f x).length = B) → j < B →
    ∀ x, l[i]? = some x → (l.flatMap f)[i * B + j]? = (f x)[j]? := by
  intro l
  induction l with
  | nil => intro i j _ _ x hx; simp at hx
  | cons y l ih =>
    intro i j hB hj x hx
    rw [List.flatMap_cons]
    match i with
    | 0 =>
      simp only [List.getElem?_cons_zero, Option.some.injEq] at hx
      rw [← hx, Nat.zero_mul, Nat.zero_add, List.getElem?_append]
      rw [hB y (by simp), if_pos hj]
    | i + 1 =>
      simp only [List.getElem?_cons_succ] at hx
      have hlen : (f y).length = B := hB y (by simp)
      have : (i + 1) * B + j = (f y).length + (i * B + j) := by rw [hlen]; ring
      rw [this, List.getElem?_append_right (by omega)]
      have : (f y).length + (i * B + j) - (f y).length = i * B + j := by omega
      rw [this]
      exact ih i j (fun x hx => hB x (by simp [hx])) hj x hx

theorem tuples_getElem_rank : ∀ {sizes c : List Nat}, validTuple sizes c →
    (tuples sizes)[tupleRank sizes c]? = some c := by
  intro sizes
  induction sizes with
  | nil =>
    intro c h
    cases h
    simp [tuples, tupleRank]
  | cons s ss ih =>
    intro c h
    cases h with
    | cons ha hcs =>
      rename_i a cs
      simp only [tuples, tupleRank]
      have hrank : tupleRank ss cs < ss.prod := tupleRank_lt_prod hcs
      have := flatMap_getElem_uniform (fun i => (tuples ss).map (i :: ·)) ss.prod
        (List.range s) a (tupleRank ss cs)
        (by intro x _; simp [length_tuples])
        hrank a (by simp [List.getElem?_range, ha])
      rw [this, List.getElem?_map, ih hcs]
      rfl

theorem tuples_drop_rank {sizes c : List Nat} (h : validTuple sizes c) :
    (tuples sizes).drop (tupleRank sizes c)
      = c :: (tuples sizes).drop (tupleRank sizes c + 1) := by
  have hlt : tupleRank sizes c < (tuples sizes).length := by
    rw [length_tuples]; exact tupleRank_lt_prod h
  rw [List.drop_eq_getElem_cons hlt]
  congr 1
  have h2 := tuples_getElem_rank h
  rw [List.getElem?_eq_getElem hlt, Option.some.injEq] at h2
  exact h2

theorem validTuple_replicate_zero {sizes : List Nat} (hpos : ∀ s ∈ sizes, 0 < s) :
    validTuple sizes (List.replicate sizes.length 0) := by
  induction sizes with
  | nil => exact List.Forall₂.nil
  | cons s ss ih =>
    simp only [List.length_cons, List.replicate_succ]
    exact List.Forall₂.cons (hpos s (by simp)) (ih (fun x hx => hpos x (by simp [hx])))

theorem tupleRank_of_all_zero : ∀ (sizes c : List Nat),
    (∀ i, c.getD i 0 = 0) → tupleRank sizes c = 0 := by
  intro sizes
  induction sizes with
  | nil => intro c _; cases c <;> simp [tupleRank]
  | cons s ss ih =>
    intro c hz
    cases c with
    | nil => simp [tupleRank]
    | cons a cs =>
      have ha : a = 0 := hz 0
      have : ∀ i, cs.getD i 0 = 0 := fun i => hz (i + 1)
      simp [tupleRank, ha, ih cs this]

theorem viewOffset_of_all_zero : ∀ (strides : List Int) (c : List Nat),
    (∀ i, c.getD i 0 = 0) → viewOffset strides c = 0 := by
  intro strides
  induction strides with
  | nil => intro c _; cases c <;> simp [viewOffset]
  | cons st sts ih =>
    intro c hz
    cases c with
    | nil => simp [viewOffset]
    | cons a cs =>
      have ha : a = 0 := hz 0
      have : ∀ i, cs.getD i 0 = 0 := fun i => hz (i + 1)
      simp [viewOffset, ha, ih cs this]

theorem getD_replicate_zero (n i : Nat) : (List.replicate n (0 : Nat)).getD i 0 = 0 := by
  rcases Nat.lt_or_ge i n with h | h
  · rw [List.getD_eq_getElem _ _ (by simpa using h)]
    simp
  · rw [List.getD_eq_default]
    simpa using h

theorem defaultStrides_length : ∀ sizes : List Nat, (defaultStrides sizes).length = sizes.length := by
  intro sizes
  induction sizes with
  | nil => rfl
  | cons s ss ih => simp [defaultStrides, ih]

theorem contigStrides_defaultStrides : ∀ sizes : List Nat,
    contigStrides sizes (defaultStrides sizes) := by
  intro sizes
  induction sizes with
  | nil => trivial
  | cons s ss ih => exact ⟨rfl, ih⟩

theorem defaultStrides_getD : ∀ (sizes : List Nat) (d : Nat), d < sizes.length →
    (defaultStrides sizes).getD d 0 = ((sizes.drop (d + 1)).prod : Int) := by
  intro sizes
  induction sizes with
  | nil => intro d hd; simp at hd
  | cons s ss ih =>
    intro d hd
    match d with
    | 0 => simp [defaultStrides]
    | d + 1 =>
      simp only [defaultStrides, List.getD_cons_succ, List.drop_succ_cons]
      exact ih d (by simpa using hd)

theorem contigStrides_of_getD : ∀ (A : List Nat) (B : List Int), B.length = A.length →
    (∀ d, d < A.length → B.getD d 0 = ((A.drop (d + 1)).prod : Int)) →
    contigStrides A B := by
  intro A
  induction A with
  | nil =>
    intro B hB _
    cases B
    · trivial
    · simp at hB
  | cons a A ih =>
    intro B hB hD
    cases B with
    | nil => simp at hB
    | cons b B =>
      refine ⟨?_, ?_⟩
      · have := hD 0 (by simp)
        simpa using this
      · refine ih B (by simpa using hB) ?_
        intro d hd
        have := hD (d + 1) (by simpa using hd)
        simpa using this

theorem rowMajor_contig (buf : List Nat) (e : Nat) :
    ∀ (ss : List Nat) (sts : List Int), contigStrides ss sts →
    ∀ base : Int, rowMajorBytes buf e ss sts base = sliceBytes buf base (ss.prod * e) := by
  intro ss
  induction ss with
  | nil =>
    intro sts h base
    cases sts
    · simp [rowMajorBytes]
    · exact absurd h (by simp [contigStrides])
  | cons s ss ih =>
    intro sts h base
    cases sts with
    | nil => exact absurd h (by simp [contigStrides])
    | cons st sts =>
      obtain ⟨hst, hrest⟩ := h
      simp only [rowMajorBytes, List.tail_cons, List.headD_cons]
      have : ∀ i ∈ List.range s,
          rowMajorBytes buf e ss sts (base + (i : Int) * st * (e : Int))
            = sliceBytes buf (base + (i : Int) * ((ss.prod * e : Nat) : Int)) (ss.prod * e) := by
        intro i _
        rw [ih sts hrest]
        congr 1
        subst hst
        push_cast
        ring
      rw [List.flatMap_congr this, flatMap_range_slice buf base (ss.prod * e) s]
      rw [List.prod_cons, Nat.mul_assoc]

theorem rowMajor_append (buf : List Nat) (e : Nat) :
    ∀ (L : List Nat) (SL : List Int) (T : List Nat) (ST : List Int) (base : Int),
    SL.length = L.length →
    rowMajorBytes buf e (L ++ T) (SL ++ ST) base
      = (tuples L).flatMap fun ix =>
          rowMajorBytes buf e T ST (base + viewOffset SL ix * (e : Int)) := by
  intro L
  induction L with
  | nil =>
    intro SL T ST base hSL
    cases SL
    · simp [tuples, viewOffset]
    · simp at hSL
  | cons s L ih =>
    intro SL T ST base hSL
    cases SL with
    | nil => simp at hSL
    | cons st SL =>
      simp only [List.cons_append, rowMajorBytes, List.tail_cons, List.headD_cons, tuples,
        List.append_eq]
      rw [List.flatMap_assoc]
      apply List.flatMap_congr
      intro i _
      rw [List.flatMap_map, ih SL T ST _ (by simpa using hSL)]
      apply List.flatMap_congr
      intro ix _
      simp only [Function.comp_apply, viewOffset]
      congr 1
      ring

/-! ## Index lemmas for the odometer counter -/

theorem getD_set_self {l : List Nat} {i : Nat} (v : Nat) (h : i < l.length) :
    (l.set i v).getD i 0 = v := by
  simp [List.getD, List.getElem?_set, h]

theorem getD_set_ne {l : List Nat} {i j : Nat} (v : Nat) (h : i ≠ j) :
    (l.set i v).getD j 0 = l.getD j 0 := by
  simp [List.getD, List.getElem?_set, h]

theorem getD_take_of_lt {l : List Nat} {n i : Nat} (h : i < n) :
    (l.take n).getD i 0 = l.getD i 0 := by
  simp [List.getD, List.getElem?_take, h]

theorem validTuple_getD : ∀ {sizes c : List Nat}, validTuple sizes c →
    ∀ i, i < sizes.length → c.getD i 0 < sizes.getD i 0 := by
  intro sizes
  induction sizes with
  | nil => intro c _ i hi; simp at hi
  | cons s ss ih =>
    intro c h i hi
    cases h with
    | cons ha hcs =>
      match i with
      | 0 => simpa using ha
      | i + 1 =>
        simp only [List.getD_cons_succ]
        exact ih hcs i (by simpa using hi)

theorem validTuple_set : ∀ {sizes c : List Nat}, validTuple sizes c →
    ∀ {i v : Nat}, v < sizes.getD i 0 → validTuple sizes (c.set i v) := by
  intro sizes
  induction sizes with
  | nil =>
    intro c h i v _
    cases h
    simp only [List.set_nil]
    exact List.Forall₂.nil
  | cons s ss ih =>
    intro c h i v hv
    cases h with
    | cons ha hcs =>
      match i with
      | 0 => exact List.Forall₂.cons (by simpa using hv) hcs
      | i + 1 =>
        exact List.Forall₂.cons ha (ih hcs (by simpa using hv))

theorem tupleRank_set : ∀ (sizes c : List Nat) (i v : Nat),
    i < c.length → c.length = sizes.length →
    tupleRank sizes (c.set i v) + c.getD i 0 * (sizes.drop (i + 1)).prod
      = tupleRank sizes c + v * (sizes.drop (i + 1)).prod := by
  intro sizes
  induction sizes with
  | nil =>
    intro c i v hi hlen
    have hc : c = [] := by
      cases c
      · rfl
      · simp at hlen
    subst hc
    simp at hi
  | cons s ss ih =>
    intro c i v hi hlen
    cases c with
    | nil => simp at hi
    | cons a cs =>
      match i with
      | 0 =>
        simp only [List.set_cons_zero, tupleRank, List.getD_cons_zero, List.drop_succ_cons,
          List.drop_zero]
        ring
      | i + 1 =>
        simp only [List.set_cons_succ, tupleRank, List.getD_cons_succ, List.drop_succ_cons]
        have := ih cs i v (by simpa using hi) (by simpa using hlen)
        omega

theorem viewOffset_set : ∀ (strides : List Int) (c : List Nat) (i v : Nat),
    i < c.length → i < strides.length →
    viewOffset strides (c.set i v)
      = viewOffset strides c + ((v : Int) - (c.getD i 0 : Int)) * strides.getD i 0 := by
  intro strides
  induction strides with
  | nil => intro c i v _ hi; simp at hi
  | cons st sts ih =>
    intro c i v hi _
    cases c with
    | nil => simp at hi
    | cons a cs =>
      match i with
      | 0 =>
        simp only [List.set_cons_zero, viewOffset, List.getD_cons_zero]
        ring
      | i + 1 =>
        simp only [List.set_cons_succ, viewOffset, List.getD_cons_succ]
        rw [ih cs i v (by simpa using hi) (by simpa using (by assumption : i + 1 < (st :: sts).length))]
        ring

theorem tupleRank_tail_zero : ∀ (sizes c : List Nat), c.length = sizes.length →
    (∀ i, 0 < i → c.getD i 0 = 0) →
    tupleRank sizes c = c.getD 0 0 * (sizes.drop 1).prod := by
  intro sizes c hlen hz
  cases sizes with
  | nil =>
    have : c = [] := List.length_eq_zero.mp hlen
    simp [this, tupleRank]
  | cons s ss =>
    cases c with
    | nil => simp at hlen
    | cons a cs =>
      have : tupleRank ss cs = 0 := tupleRank_of_all_zero ss cs (fun i => hz (i + 1) (by omega))
      simp [tupleRank, this]

theorem drop_prod_getD (sizes : List Nat) (i : Nat) (h : i < sizes.length) :
    (sizes.drop i).prod = sizes.getD i 0 * (sizes.drop (i + 1)).prod := by
  rw [List.drop_eq_getElem_cons h, List.prod_cons, List.getD_eq_getElem?_getD,
    List.getElem?_eq_getElem h]
  rfl

theorem getD_mem {l : List Nat} {i : Nat} (h : i < l.length) : l.getD i 0 ∈ l := by
  rw [List.getD_eq_getElem?_getD, List.getElem?_eq_getElem h]
  exact List.getElem_mem h


/-! ## Characterization of the contiguity scan -/

theorem contigScan_spec (sizes : List Nat) (strides : List Int) :
    ∀ (k : Nat) (contig : Nat), k ≤ sizes.length →
    contig = (sizes.drop k).prod →
    (∀ d, k ≤ d → d < sizes.length → strides.getD d 0 = ((sizes.drop (d + 1)).prod : Int)) →
    (contigScan sizes strides k contig).1 ≤ k
    ∧ (contigScan sizes strides k contig).2
        = (sizes.drop (contigScan sizes strides k contig).1).prod
    ∧ (∀ d, (contigScan sizes strides k contig).1 ≤ d → d < sizes.length →
        strides.getD d 0 = ((sizes.drop (d + 1)).prod : Int))
    ∧ (0 < (contigScan sizes strides k contig).1 →
        strides.getD ((contigScan sizes strides k contig).1 - 1) 0
          ≠ (((contigScan sizes strides k contig).2 : Nat) : Int)) := by
  intro k
  induction k with
  | zero =>
    intro contig _ hcontig hD
    simp only [contigScan]
    exact ⟨le_rfl, by simpa using hcontig, hD, by omega⟩
  | succ k ih =>
    intro contig hk hcontig hD
    by_cases hst : strides.getD k 0 = (contig : Int)
    · rw [contigScan, if_pos hst]
      have hklen : k < sizes.length := by omega
      have hc' : contig * sizes.getD k 0 = (sizes.drop k).prod := by
        rw [drop_prod_getD sizes k hklen, ← hcontig]
        ring
      have hD' : ∀ d, k ≤ d → d < sizes.length →
          strides.getD d 0 = ((sizes.drop (d + 1)).prod : Int) := by
        intro d hd1 hd2
        rcases Nat.eq_or_lt_of_le hd1 with h | h
        · rw [← h, hst, hcontig]
        · exact hD d h hd2
      have := ih (contig * sizes.getD k 0) (by omega) hc' hD'
      exact ⟨le_trans this.1 (by omega), this.2.1, this.2.2.1, this.2.2.2⟩
    · rw [contigScan, if_neg hst]
      refine ⟨le_rfl, by simpa using hcontig, hD, ?_⟩
      intro _
      simpa using hst

theorem computeContiguity_spec (sizes : List Nat) (strides : List Int)
    (hne : strides ≠ []) (_hlen : strides.length = sizes.length) :
    (computeContiguity sizes strides).1 ≤ sizes.length
    ∧ (computeContiguity sizes strides).2
        = (sizes.drop (computeContiguity sizes strides).1).prod
    ∧ (∀ d, (computeContiguity sizes strides).1 ≤ d → d < sizes.length →
        strides.getD d 0 = ((sizes.drop (d + 1)).prod : Int))
    ∧ (0 < (computeContiguity sizes strides).1 →
        strides.getD ((computeContiguity sizes strides).1 - 1) 0
          ≠ (((computeContiguity sizes strides).2 : Nat) : Int)) := by
  unfold computeContiguity
  rw [if_neg hne]
  have := contigScan_spec sizes strides sizes.length 1 le_rfl (by simp)
    (by intro d h1 h2; omega)
  exact this

theorem getD_drop_int (l : List Int) (n m : Nat) : (l.drop n).getD m 0 = l.getD (n + m) 0 := by
  simp [List.getD, List.getElem?_drop]

theorem computeContiguity_contigStrides (sizes : List Nat) (strides : List Int)
    (hne : strides ≠ []) (hlen : strides.length = sizes.length) :
    contigStrides (sizes.drop (computeContiguity sizes strides).1)
      (strides.drop (computeContiguity sizes strides).1) := by
  obtain ⟨h1, _, h3, _⟩ := computeContiguity_spec sizes strides hne hlen
  apply contigStrides_of_getD
  · simp [hlen]
  · intro d hd
    rw [getD_drop_int, List.drop_drop]
    have hdl : (computeContiguity sizes strides).1 + d < sizes.length := by
      simp [List.length_drop] at hd
      omega
    have := h3 ((computeContiguity sizes strides).1 + d) (by omega) hdl
    rw [this, Nat.add_assoc]

theorem contigScan_full (sizes : List Nat) (strides : List Int) :
    ∀ (k : Nat) (contig : Nat), k ≤ sizes.length → contig = (sizes.drop k).prod →
    (∀ d, d < k → strides.getD d 0 = ((sizes.drop (d + 1)).prod : Int)) →
    contigScan sizes strides k contig = (0, sizes.prod) := by
  intro k
  induction k with
  | zero =>
    intro contig _ hcontig _
    simp [contigScan, hcontig]
  | succ k ih =>
    intro contig hk hcontig hD
    have hklen : k < sizes.length := by omega
    have hst : strides.getD k 0 = (contig : Int) := by
      rw [hD k (by omega), hcontig]
    rw [contigScan, if_pos hst]
    apply ih (contig * sizes.getD k 0) (by omega)
    · rw [drop_prod_getD sizes k hklen, ← hcontig]
      ring
    · intro d hd
      exact hD d (by omega)

theorem computeContiguity_rowMajor (sizes : List Nat) :
    computeContiguity sizes (defaultStrides sizes) = (0, sizes.prod) := by
  by_cases h : defaultStrides sizes = []
  · unfold computeContiguity
    rw [if_pos h]
  · unfold computeContiguity
    rw [if_neg h]
    apply contigScan_full sizes (defaultStrides sizes) sizes.length 1 le_rfl (by simp)
    intro d hd
    exact defaultStrides_getD sizes d hd


/-! ## Odometer loop: step reductions and reachability -/

theorem odoRun_done (sizes : List Nat) (strides : List Int) (elementSize : Nat)
    (data : IOBuf) (contiguousSize : Nat) (fcd : Nat) (mayShare : Bool)
    (fuel : Nat) (cs : List Chunk) :
    odoRun sizes strides elementSize data contiguousSize fcd mayShare fuel (.done cs)
      = .done cs :=
  Function.iterate_fixed rfl fuel

theorem odoRun_add (sizes : List Nat) (strides : List Int) (elementSize : Nat)
    (data : IOBuf) (contiguousSize : Nat) (fcd : Nat) (mayShare : Bool)
    (a b : Nat) (s : OdoState) :
    odoRun sizes strides elementSize data contiguousSize fcd mayShare (a + b) s
      = odoRun sizes strides elementSize data contiguousSize fcd mayShare a
          (odoRun sizes strides elementSize data contiguousSize fcd mayShare b s) :=
  Function.iterate_add_apply _ a b s

theorem odoRun_succ (sizes : List Nat) (strides : List Int) (elementSize : Nat)
    (data : IOBuf) (contiguousSize : Nat) (fcd : Nat) (mayShare : Bool)
    (n : Nat) (s : OdoState) :
    odoRun sizes strides elementSize data contiguousSize fcd mayShare (n + 1) s
      = odoRun sizes strides elementSize data contiguousSize fcd mayShare n
          (odoStep sizes strides elementSize data contiguousSize fcd mayShare s) :=
  Function.iterate_succ_apply _ n s

theorem odoRun_done_mono (sizes : List Nat) (strides : List Int) (elementSize : Nat)
    (data : IOBuf) (contiguousSize : Nat) (fcd : Nat) (mayShare : Bool)
    {k K : Nat} {s : OdoState} {cs : List Chunk}
    (h : odoRun sizes strides elementSize data contiguousSize fcd mayShare k s = .done cs)
    (hk : k ≤ K) :
    odoRun sizes strides elementSize data contiguousSize fcd mayShare K s = .done cs := by
  have hK : K = (K - k) + k := by omega
  rw [hK, odoRun_add, h, odoRun_done]

theorem odoStep_neg (sizes : List Nat) (strides : List Int) (elementSize : Nat)
    (data : IOBuf) (contiguousSize : Nat) (fcd : Nat) (mayShare : Bool)
    (idx : Int) (off : Int) (c : List Nat) (acc : List Chunk) (h : idx < 0) :
    odoStep sizes strides elementSize data contiguousSize fcd mayShare
      (.running idx off c acc) = .done acc := by
  simp only [odoStep]
  rw [if_pos h]

theorem odoStep_emit (sizes : List Nat) (strides : List Int) (elementSize : Nat)
    (data : IOBuf) (contiguousSize : Nat) (fcd : Nat) (mayShare : Bool)
    (off : Int) (c : List Nat) (acc : List Chunk)
    (hsafe : ¬(emitShared mayShare contiguousSize = true
      ∧ (off < 0 ∨ data.bytes.length < off.toNat + contiguousSize))) :
    odoStep sizes strides elementSize data contiguousSize fcd mayShare
      (.running (fcd : Int) off c acc)
    = .running ((fcd : Int) - 1) off c
        (acc ++ [⟨emitShared mayShare contiguousSize,
                  sliceBytes data.bytes off contiguousSize⟩]) := by
  simp only [odoStep]
  rw [if_neg (show ¬((fcd : Int) < 0) by omega), if_pos trivial, if_neg hsafe]

theorem odoStep_carry_reset (sizes : List Nat) (strides : List Int) (elementSize : Nat)
    (data : IOBuf) (contiguousSize : Nat) (fcd : Nat) (mayShare : Bool)
    (j : Nat) (off : Int) (c : List Nat) (acc : List Chunk) (hjf : j ≠ fcd)
    (hmod : (c.getD j 0 + 1) % uint64Mod = sizes.getD j 0) :
    odoStep sizes strides elementSize data contiguousSize fcd mayShare
      (.running (j : Int) off c acc)
    = .running ((j : Int) - 1)
        (off + strides.getD j 0 * (elementSize : Int)
          - (sizes.getD j 0 : Int) * strides.getD j 0 * (elementSize : Int))
        (c.set j 0) acc := by
  simp only [odoStep, Int.toNat_natCast]
  rw [if_neg (show ¬((j : Int) < 0) by omega),
    if_neg (show ¬((j : Int) = (fcd : Int)) from by exact_mod_cast hjf),
    if_pos hmod]

theorem odoStep_carry_inc (sizes : List Nat) (strides : List Int) (elementSize : Nat)
    (data : IOBuf) (contiguousSize : Nat) (fcd : Nat) (mayShare : Bool)
    (j : Nat) (off : Int) (c : List Nat) (acc : List Chunk) (hjf : j ≠ fcd)
    (hmod : (c.getD j 0 + 1) % uint64Mod ≠ sizes.getD j 0) :
    odoStep sizes strides elementSize data contiguousSize fcd mayShare
      (.running (j : Int) off c acc)
    = .running (fcd : Int) (off + strides.getD j 0 * (elementSize : Int))
        (c.set j ((c.getD j 0 + 1) % uint64Mod)) acc := by
  simp only [odoStep, Int.toNat_natCast]
  rw [if_neg (show ¬((j : Int) < 0) by omega),
    if_neg (show ¬((j : Int) = (fcd : Int)) from by exact_mod_cast hjf),
    if_neg hmod]


/-- Carry phase of the odometer: from a state at cursor `j < firstContiguousDim`
whose counter is zero above `j`, the loop either exits (all positions at their
maximum) or reaches the emit state of the row-major successor tuple, in at
most `j + 2` steps. -/
theorem carry_phase (sizes : List Nat) (strides : List Int) (elementSize : Nat)
    (data : IOBuf) (contiguousSize : Nat) (fcd : Nat) (mayShare : Bool)
    (hfs : fcd ≤ sizes.length) (hfst : fcd ≤ strides.length)
    (hbound : ∀ s ∈ sizes, s < uint64Mod) :
    ∀ (j : Nat) (c : List Nat) (acc : List Chunk),
    j < fcd → c.length = fcd → validTuple (sizes.take fcd) c →
    (∀ i, j < i → c.getD i 0 = 0) →
    ∃ k ≤ j + 2,
      (odoRun sizes strides elementSize data contiguousSize fcd mayShare k
          (.running (j : Int) (viewOffset strides c * (elementSize : Int)) c acc) = .done acc
        ∧ tupleRank (sizes.take fcd) c + ((sizes.take fcd).drop (j + 1)).prod
            = (sizes.take fcd).prod)
      ∨ (∃ c', odoRun sizes strides elementSize data contiguousSize fcd mayShare k
            (.running (j : Int) (viewOffset strides c * (elementSize : Int)) c acc)
            = .running (fcd : Int) (viewOffset strides c' * (elementSize : Int)) c' acc
          ∧ validTuple (sizes.take fcd) c' ∧ c'.length = fcd
          ∧ tupleRank (sizes.take fcd) c'
              = tupleRank (sizes.take fcd) c + ((sizes.take fcd).drop (j + 1)).prod) := by
  intro j
  induction j with
  | zero =>
    intro c acc hj hclen hval hz
    have hszL : (sizes.take fcd).length = fcd := by
      rw [List.length_take]; omega
    have hcj : c.getD 0 0 < sizes.getD 0 0 := by
      have h1 := validTuple_getD hval 0 (by omega)
      rwa [getD_take_of_lt hj] at h1
    have hsu : sizes.getD 0 0 < uint64Mod := hbound _ (getD_mem (by omega))
    have hmodid : (c.getD 0 0 + 1) % uint64Mod = c.getD 0 0 + 1 :=
      Nat.mod_eq_of_lt (by omega)
    by_cases hcarry : c.getD 0 0 + 1 = sizes.getD 0 0
    · -- position 0 wraps: the loop exits
      have hstep := odoStep_carry_reset sizes strides elementSize data contiguousSize fcd
        mayShare 0 (viewOffset strides c * (elementSize : Int)) c acc (by omega)
        (by rw [hmodid]; exact hcarry)
      refine ⟨2, by omega, Or.inl ⟨?_, ?_⟩⟩
      · rw [(by norm_num : (2 : Nat) = 1 + 1), odoRun_succ, hstep, odoRun_succ,
          odoStep_neg sizes strides elementSize data contiguousSize fcd mayShare _ _ _ _
            (by omega)]
        rw [odoRun_done]
      · have htail := tupleRank_tail_zero (sizes.take fcd) c (by omega)
          (fun i hi => hz i hi)
        have h0 : (sizes.take fcd).getD 0 0 = sizes.getD 0 0 := getD_take_of_lt hj
        have hd := drop_prod_getD (sizes.take fcd) 0 (by omega)
        rw [List.drop_zero] at hd
        rw [htail, hd, h0, ← hcarry]
        simp only [Nat.zero_add]
        ring
    · -- position 0 increments: emit state of the successor
      have hstep := odoStep_carry_inc sizes strides elementSize data contiguousSize fcd
        mayShare 0 (viewOffset strides c * (elementSize : Int)) c acc (by omega)
        (by rw [hmodid]; exact hcarry)
      rw [hmodid] at hstep
      have hoff : viewOffset strides c * (elementSize : Int)
          + strides.getD 0 0 * (elementSize : Int)
          = viewOffset strides (c.set 0 (c.getD 0 0 + 1)) * (elementSize : Int) := by
        rw [viewOffset_set strides c 0 (c.getD 0 0 + 1) (by omega) (by omega)]
        push_cast
        ring
      rw [hoff] at hstep
      refine ⟨1, by omega, Or.inr ⟨c.set 0 (c.getD 0 0 + 1), ?_, ?_, ?_, ?_⟩⟩
      · rw [(by norm_num : (1 : Nat) = 0 + 1), odoRun_succ, hstep]
        rfl
      · apply validTuple_set hval
        rw [getD_take_of_lt hj]
        omega
      · rw [List.length_set]; exact hclen
      · have hset := tupleRank_set (sizes.take fcd) c 0 (c.getD 0 0 + 1) (by omega)
          (by omega)
        have hmul : (c.getD 0 0 + 1) * ((sizes.take fcd).drop (0 + 1)).prod
            = c.getD 0 0 * ((sizes.take fcd).drop (0 + 1)).prod
              + ((sizes.take fcd).drop (0 + 1)).prod := by ring
        rw [hmul] at hset
        omega
  | succ j ih =>
    intro c acc hj hclen hval hz
    have hszL : (sizes.take fcd).length = fcd := by
      rw [List.length_take]; omega
    have hcj : c.getD (j + 1) 0 < sizes.getD (j + 1) 0 := by
      have h1 := validTuple_getD hval (j + 1) (by omega)
      rwa [getD_take_of_lt hj] at h1
    have hsu : sizes.getD (j + 1) 0 < uint64Mod := hbound _ (getD_mem (by omega))
    have hmodid : (c.getD (j + 1) 0 + 1) % uint64Mod = c.getD (j + 1) 0 + 1 :=
      Nat.mod_eq_of_lt (by omega)
    by_cases hcarry : c.getD (j + 1) 0 + 1 = sizes.getD (j + 1) 0
    · -- position j+1 wraps: reset it and carry outward into position j
      have hstep := odoStep_carry_reset sizes strides elementSize data contiguousSize fcd
        mayShare (j + 1) (viewOffset strides c * (elementSize : Int)) c acc (by omega)
        (by rw [hmodid]; exact hcarry)
      have hoff : viewOffset strides c * (elementSize : Int)
          + strides.getD (j + 1) 0 * (elementSize : Int)
          - (sizes.getD (j + 1) 0 : Int) * strides.getD (j + 1) 0 * (elementSize : Int)
          = viewOffset strides (c.set (j + 1) 0) * (elementSize : Int) := by
        rw [viewOffset_set strides c (j + 1) 0 (by omega) (by omega)]
        have hc : (c.getD (j + 1) 0 : Int) = (sizes.getD (j + 1) 0 : Int) - 1 := by
          omega
        rw [hc]
        push_cast
        ring
      rw [hoff] at hstep
      have hidx : ((j + 1 : Nat) : Int) - 1 = (j : Int) := by push_cast; ring
      rw [hidx] at hstep
      have hval2 : validTuple (sizes.take fcd) (c.set (j + 1) 0) := by
        apply validTuple_set hval
        rw [getD_take_of_lt hj]
        omega
      have hz2 : ∀ i, j < i → (c.set (j + 1) 0).getD i 0 = 0 := by
        intro i hi
        rcases Nat.eq_or_lt_of_le hi with h | h
        · rw [← h, getD_set_self 0 (by omega)]
        · rw [getD_set_ne 0 (by omega)]
          exact hz i (by omega)
      obtain ⟨k', hk', hres⟩ := ih (c.set (j + 1) 0) acc (by omega)
        (by rw [List.length_set]; exact hclen) hval2 hz2
      have hset := tupleRank_set (sizes.take fcd) c (j + 1) 0 (by omega) (by omega)
      rw [Nat.zero_mul, Nat.add_zero] at hset
      have hdp := drop_prod_getD (sizes.take fcd) (j + 1) (by omega)
      have htake : (sizes.take fcd).getD (j + 1) 0 = sizes.getD (j + 1) 0 :=
        getD_take_of_lt hj
      have hXD : ((sizes.take fcd).drop (j + 1)).prod
          = c.getD (j + 1) 0 * ((sizes.take fcd).drop (j + 1 + 1)).prod
            + ((sizes.take fcd).drop (j + 1 + 1)).prod := by
        rw [hdp, htake, ← hcarry]
        ring
      rcases hres with ⟨hdone, hrank⟩ | ⟨c', hstate, hval', hlen', hrank'⟩
      · refine ⟨k' + 1, by omega, Or.inl ⟨?_, ?_⟩⟩
        · rw [odoRun_succ, hstep, hdone]
        · rw [hXD] at hrank
          omega
      · refine ⟨k' + 1, by omega, Or.inr ⟨c', ?_, hval', hlen', ?_⟩⟩
        · rw [odoRun_succ, hstep, hstate]
        · rw [hXD] at hrank'
          omega
    · -- position j+1 increments: emit state of the successor
      have hstep := odoStep_carry_inc sizes strides elementSize data contiguousSize fcd
        mayShare (j + 1) (viewOffset strides c * (elementSize : Int)) c acc (by omega)
        (by rw [hmodid]; exact hcarry)
      rw [hmodid] at hstep
      have hoff : viewOffset strides c * (elementSize : Int)
          + strides.getD (j + 1) 0 * (elementSize : Int)
          = viewOffset strides (c.set (j + 1) (c.getD (j + 1) 0 + 1))
              * (elementSize : Int) := by
        rw [viewOffset_set strides c (j + 1) (c.getD (j + 1) 0 + 1) (by omega) (by omega)]
        push_cast
        ring
      rw [hoff] at hstep
      refine ⟨1, by omega, Or.inr ⟨c.set (j + 1) (c.getD (j + 1) 0 + 1), ?_, ?_, ?_, ?_⟩⟩
      · rw [(by norm_num : (1 : Nat) = 0 + 1), odoRun_succ, hstep]
        rfl
      · apply validTuple_set hval
        rw [getD_take_of_lt hj]
        omega
      · rw [List.length_set]; exact hclen
      · have hset := tupleRank_set (sizes.take fcd) c (j + 1) (c.getD (j + 1) 0 + 1)
          (by omega) (by omega)
        have hmul : (c.getD (j + 1) 0 + 1) * ((sizes.take fcd).drop (j + 1 + 1)).prod
            = c.getD (j + 1) 0 * ((sizes.take fcd).drop (j + 1 + 1)).prod
              + ((sizes.take fcd).drop (j + 1 + 1)).prod := by ring
        rw [hmul] at hset
        omega


/-- Main odometer lemma: from the emit state of a valid tuple `c`, the loop
runs to completion, appending exactly one chunk per remaining tuple in
row-major order: the slice of `contiguousSize` bytes at that tuple's strided
byte offset. `m` is the number of remaining tuples (`rank c + m = prod`). -/
theorem odometer_main (sizes : List Nat) (strides : List Int) (elementSize : Nat)
    (data : IOBuf) (contiguousSize : Nat) (fcd : Nat) (mayShare : Bool)
    (hfcd : 0 < fcd) (hfs : fcd ≤ sizes.length) (hfst : fcd ≤ strides.length)
    (hbound : ∀ s ∈ sizes, s < uint64Mod)
    (hsafe : ∀ t, validTuple (sizes.take fcd) t →
      0 ≤ viewOffset strides t * (elementSize : Int)
      ∧ (viewOffset strides t * (elementSize : Int)).toNat + contiguousSize
          ≤ data.bytes.length) :
    ∀ (m : Nat) (c : List Nat) (acc : List Chunk),
    validTuple (sizes.take fcd) c →
    tupleRank (sizes.take fcd) c + m = (sizes.take fcd).prod →
    ∃ k ≤ m * (fcd + 2),
      odoRun sizes strides elementSize data contiguousSize fcd mayShare k
        (.running (fcd : Int) (viewOffset strides c * (elementSize : Int)) c acc)
      = .done (acc ++ ((tuples (sizes.take fcd)).drop (tupleRank (sizes.take fcd) c)).map
          (fun t => ⟨emitShared mayShare contiguousSize,
            sliceBytes data.bytes (viewOffset strides t * (elementSize : Int))
              contiguousSize⟩)) := by
  intro m
  induction m with
  | zero =>
    intro c acc hval hrank
    exact absurd hrank (by have := tupleRank_lt_prod hval; omega)
  | succ m ih =>
    intro c acc hval hrank
    have hszL : (sizes.take fcd).length = fcd := by
      rw [List.length_take]; omega
    have hclen : c.length = fcd := by
      have := validTuple_length hval
      omega
    obtain ⟨hoff0, hofflen⟩ := hsafe c hval
    have hstep := odoStep_emit sizes strides elementSize data contiguousSize fcd mayShare
      (viewOffset strides c * (elementSize : Int)) c acc
      (by
        intro hcon
        rcases hcon.2 with h | h
        · omega
        · omega)
    have hidx : (fcd : Int) - 1 = ((fcd - 1 : Nat) : Int) := by omega
    rw [hidx] at hstep
    have hz : ∀ i, fcd - 1 < i → c.getD i 0 = 0 := by
      intro i hi
      exact List.getD_eq_default _ _ (by omega)
    obtain ⟨k₁, hk₁, hres⟩ := carry_phase sizes strides elementSize data contiguousSize fcd
      mayShare hfs hfst hbound (fcd - 1) c
      (acc ++ [⟨emitShared mayShare contiguousSize,
        sliceBytes data.bytes (viewOffset strides c * (elementSize : Int)) contiguousSize⟩])
      (by omega) hclen hval hz
    have hdropfcd : ((sizes.take fcd).drop ((fcd - 1) + 1)).prod = 1 := by
      have h1 : (fcd - 1) + 1 = fcd := by omega
      have h2 : (sizes.take fcd).drop fcd = [] := List.drop_eq_nil_of_le (by omega)
      rw [h1, h2]
      rfl
    rw [hdropfcd] at hres
    have hdrop := tuples_drop_rank hval
    rcases hres with ⟨hdone, hrank1⟩ | ⟨c', hstate, hval', hlen', hrank'⟩
    · -- c was the last tuple: the loop exits after this emit
      have hm : m = 0 := by omega
      subst hm
      refine ⟨k₁ + 1, ?_, ?_⟩
      · have h1 : (0 + 1) * (fcd + 2) = fcd + 2 := by ring
        omega
      · rw [odoRun_succ, hstep, hdone, hdrop]
        have hnil : (tuples (sizes.take fcd)).drop (tupleRank (sizes.take fcd) c + 1)
            = [] := by
          apply List.drop_eq_nil_of_le
          rw [length_tuples]
          omega
        rw [hnil]
        simp
    · -- continue with the successor tuple
      obtain ⟨k₂, hk₂, hdone2⟩ := ih c' (acc ++ [⟨emitShared mayShare contiguousSize,
        sliceBytes data.bytes (viewOffset strides c * (elementSize : Int)) contiguousSize⟩])
        hval' (by omega)
      refine ⟨k₂ + (k₁ + 1), ?_, ?_⟩
      · have h1 : (m + 1) * (fcd + 2) = m * (fcd + 2) + (fcd + 2) := by ring
        omega
      · rw [odoRun_add, odoRun_succ, hstep, hstate, hdone2, hdrop, hrank']
        simp [List.append_assoc]


/-! ## Assembling the general path -/

/-- The general path, on an input whose leading dimension sizes are all
positive, completes within the canonical fuel and emits one chunk per leading
index tuple, in row-major order. -/
theorem generalPathChunks_eq (sizes : List Nat) (strides : List Int) (elementSize : Nat)
    (data : IOBuf) (contiguousElems : Nat) (fcd : Nat) (mayShare : Bool)
    (hfcd : 0 < fcd) (hfs : fcd ≤ sizes.length) (hfst : fcd ≤ strides.length)
    (hpos : ∀ s ∈ sizes.take fcd, 0 < s) (hbound : ∀ s ∈ sizes, s < uint64Mod)
    (hsafe : ∀ t, validTuple (sizes.take fcd) t →
      0 ≤ viewOffset strides t * (elementSize : Int)
      ∧ (viewOffset strides t * (elementSize : Int)).toNat
          + contiguousElems * elementSize ≤ data.bytes.length) :
    generalPathChunks sizes strides elementSize data contiguousElems fcd mayShare
      = some ((tuples (sizes.take fcd)).map
          (fun t => ⟨emitShared mayShare (contiguousElems * elementSize),
            sliceBytes data.bytes (viewOffset strides t * (elementSize : Int))
              (contiguousElems * elementSize)⟩)) := by
  have hszL : (sizes.take fcd).length = fcd := by
    rw [List.length_take]; omega
  have hzero : ∀ i, (List.replicate fcd (0 : Nat)).getD i 0 = 0 := getD_replicate_zero fcd
  have hvalid : validTuple (sizes.take fcd) (List.replicate fcd 0) := by
    have := @validTuple_replicate_zero (sizes.take fcd) hpos
    rwa [hszL] at this
  have hrank0 : tupleRank (sizes.take fcd) (List.replicate fcd 0) = 0 :=
    tupleRank_of_all_zero _ _ hzero
  have hoff0 : viewOffset strides (List.replicate fcd 0) = 0 :=
    viewOffset_of_all_zero _ _ hzero
  obtain ⟨k, hk, hdone⟩ := odometer_main sizes strides elementSize data
    (contiguousElems * elementSize) fcd mayShare hfcd hfs hfst hbound hsafe
    ((sizes.take fcd).prod) (List.replicate fcd 0) [] hvalid (by omega)
  rw [hoff0, Int.zero_mul, hrank0, List.drop_zero, List.nil_append] at hdone
  have hfuel : k ≤ canonicalFuel sizes fcd := by
    unfold canonicalFuel
    have h1 : ((sizes.take fcd).prod + 1) * (fcd + 2)
        = (sizes.take fcd).prod * (fcd + 2) + (fcd + 2) := by ring
    omega
  have hrun := odoRun_done_mono sizes strides elementSize data
    (contiguousElems * elementSize) fcd mayShare hdone hfuel
  unfold generalPathChunks odoInit
  rw [hrun]

theorem generalPathResult_of_chunks {sizes : List Nat} {strides : List Int}
    {elementSize : Nat} {data : IOBuf} {contiguousElems fcd : Nat} {mayShare : Bool}
    {cs : List Chunk}
    (h : generalPathChunks sizes strides elementSize data contiguousElems fcd mayShare
      = some cs) :
    generalPathResult sizes strides elementSize data contiguousElems fcd mayShare
      = .ok cs := by
  unfold generalPathChunks at h
  unfold generalPathResult
  revert h
  cases odoRun sizes strides elementSize data (contiguousElems * elementSize) fcd mayShare
      (canonicalFuel sizes fcd) (odoInit fcd) with
  | done r => intro h; simp only [Option.some.injEq] at h; subst h; rfl
  | failed => intro h; exact absurd h (by simp)
  | running i o c a => intro h; exact absurd h (by simp)

theorem generalPathChunks_of_result {sizes : List Nat} {strides : List Int}
    {elementSize : Nat} {data : IOBuf} {contiguousElems fcd : Nat} {mayShare : Bool}
    {cs : List Chunk}
    (h : generalPathResult sizes strides elementSize data contiguousElems fcd mayShare
      = .ok cs) :
    generalPathChunks sizes strides elementSize data contiguousElems fcd mayShare
      = some cs := by
  unfold generalPathResult at h
  unfold generalPathChunks
  revert h
  cases odoRun sizes strides elementSize data (contiguousElems * elementSize) fcd mayShare
      (canonicalFuel sizes fcd) (odoInit fcd) with
  | done r => intro h; simp only [Except.ok.injEq] at h; subst h; rfl
  | failed => intro h; exact absurd h (by simp)
  | running i o c a => intro h; exact absurd h (by simp)

theorem generalPathResult_error {sizes : List Nat} {strides : List Int}
    {elementSize : Nat} {data : IOBuf} {contiguousElems fcd : Nat} {mayShare : Bool}
    {e : SerializeError}
    (h : generalPathResult sizes strides elementSize data contiguousElems fcd mayShare
      = .error e) :
    e = SerializeError.cloneOutOfRange ∨ e = SerializeError.fuelExhausted := by
  unfold generalPathResult at h
  revert h
  cases odoRun sizes strides elementSize data (contiguousElems * elementSize) fcd mayShare
      (canonicalFuel sizes fcd) (odoInit fcd) with
  | done r => intro h; exact absurd h (by simp)
  | failed => intro h; simp only [Except.error.injEq] at h; exact Or.inl h.symm
  | running i o c a => intro h; simp only [Except.error.injEq] at h; exact Or.inr h.symm

theorem length_of_mem_tuples : ∀ {S : List Nat} {c : List Nat}, c ∈ tuples S →
    c.length = S.length := by
  intro S
  induction S with
  | nil =>
    intro c hc
    simp [tuples] at hc
    simp [hc]
  | cons s ss ih =>
    intro c hc
    simp only [tuples, List.mem_flatMap, List.mem_map] at hc
    obtain ⟨i, _, c', hc', rfl⟩ := hc
    simp [ih hc']

theorem viewOffset_take : ∀ (st : List Int) (c : List Nat) (n : Nat), c.length ≤ n →
    viewOffset (st.take n) c = viewOffset st c := by
  intro st
  induction st with
  | nil => intro c n _; simp [viewOffset]
  | cons x st ih =>
    intro c n hn
    cases c with
    | nil => cases n <;> simp [viewOffset]
    | cons a cs =>
      cases n with
      | zero => simp at hn
      | succ n =>
        simp only [List.take_succ_cons, viewOffset]
        rw [ih cs n (by simpa using hn)]

/-- Flattening the emitted chunks gives exactly the row-major flattening of
the whole view, provided the trailing dimensions are laid out contiguously. -/
theorem chunks_flatten_eq_rowMajor (sizes : List Nat) (strides : List Int)
    (elementSize : Nat) (data : IOBuf) (fcd : Nat) (mayShare : Bool)
    (hfs : fcd ≤ sizes.length) (hlen : strides.length = sizes.length)
    (hcontig : contigStrides (sizes.drop fcd) (strides.drop fcd)) :
    (((tuples (sizes.take fcd)).map
        (fun t => (⟨emitShared mayShare ((sizes.drop fcd).prod * elementSize),
          sliceBytes data.bytes (viewOffset strides t * (elementSize : Int))
            ((sizes.drop fcd).prod * elementSize)⟩ : Chunk))).map Chunk.bytes).flatten
      = rowMajorBytes data.bytes elementSize sizes strides 0 := by
  conv_rhs => rw [← List.take_append_drop fcd sizes, ← List.take_append_drop fcd strides]
  rw [rowMajor_append data.bytes elementSize (sizes.take fcd) (strides.take fcd)
    (sizes.drop fcd) (strides.drop fcd) 0
    (by rw [List.length_take, List.length_take]; omega)]
  rw [List.map_map, ← List.flatMap_def]
  apply List.flatMap_congr
  intro t ht
  have htlen : t.length = fcd := by
    have := length_of_mem_tuples ht
    rw [List.length_take] at this
    omega
  rw [rowMajor_contig data.bytes elementSize (sizes.drop fcd) (strides.drop fcd) hcontig]
  simp only [Function.comp_apply]
  congr 1
  rw [viewOffset_take strides t fcd (by omega)]
  ring

/-! ## Fast path helpers -/

theorem applySharingMode_bytes (b : List Nat) (managed : Bool) (sharing : SharingMode) :
    (applySharingMode b managed sharing).bytes = b := by
  cases sharing <;> rfl

theorem validTuple_maxTuple {S : List Nat} (hpos : ∀ s ∈ S, 0 < s) :
    validTuple S (S.map (fun s => s - 1)) := by
  induction S with
  | nil => exact List.Forall₂.nil
  | cons s ss ih =>
    refine List.Forall₂.cons ?_ (ih (fun x hx => hpos x (by simp [hx])))
    have hs := hpos s (by simp)
    show s - 1 < s
    omega

theorem mem_tuples_of_valid : ∀ {S c : List Nat}, validTuple S c → c ∈ tuples S := by
  intro S
  induction S with
  | nil =>
    intro c h
    cases h
    simp [tuples]
  | cons s ss ih =>
    intro c h
    cases h with
    | cons ha hcs =>
      rename_i a cs
      simp only [tuples, List.mem_flatMap, List.mem_map]
      exact ⟨a, by simp [List.mem_range, ha], cs, ih hcs, rfl⟩

theorem viewOffset_maxTuple : ∀ (S : List Nat) (ST : List Int), contigStrides S ST →
    (∀ s ∈ S, 0 < s) →
    viewOffset ST (S.map (fun s => s - 1)) + 1 = ((S.prod : Nat) : Int) := by
  intro S
  induction S with
  | nil =>
    intro ST h _
    cases ST
    · simp [viewOffset]
    · exact absurd h (by simp [contigStrides])
  | cons s ss ih =>
    intro ST h hpos
    cases ST with
    | nil => exact absurd h (by simp [contigStrides])
    | cons st sts =>
      obtain ⟨hst, hrest⟩ := h
      simp only [List.map_cons, viewOffset]
      have hih := ih sts hrest (fun x hx => hpos x (by simp [hx]))
      have hs : 0 < s := hpos s (by simp)
      have hcast : ((s - 1 : Nat) : Int) = (s : Int) - 1 := by omega
      rw [hst, hcast]
      have hprod : (((s :: ss).prod : Nat) : Int) = (s : Int) * ((ss.prod : Nat) : Int) := by
        rw [List.prod_cons]
        push_cast
        ring
      rw [hprod]
      have hoffmax : viewOffset sts (ss.map (fun s => s - 1)) = ((ss.prod : Nat) : Int) - 1 := by
        omega
      rw [hoffmax]
      ring

/-- Consistency of the view with its buffer gives the fast-path bound: the
whole row-major extent fits in the buffer. -/
theorem inBounds_prod_le (sizes : List Nat) (strides : List Int) (elementSize : Nat)
    (bufLen : Nat) (hpos : ∀ s ∈ sizes, 0 < s)
    (hcontig : contigStrides sizes (effectiveStrides sizes strides))
    (hin : viewInBounds bufLen elementSize sizes strides) :
    sizes.prod * elementSize ≤ bufLen := by
  have hval := validTuple_maxTuple hpos
  have hmem := mem_tuples_of_valid hval
  obtain ⟨_, h2⟩ := hin _ hmem
  have hoff := viewOffset_maxTuple sizes (effectiveStrides sizes strides) hcontig hpos
  rw [hoff] at h2
  have hle : ((sizes.prod * elementSize : Nat) : Int) ≤ (bufLen : Int) := by
    push_cast
    push_cast at h2
    nlinarith [h2]
  exact_mod_cast hle

theorem contig_logicalBytes (buf : List Nat) (e : Nat) (sizes : List Nat)
    (strides : List Int) (hcontig : contigStrides sizes (effectiveStrides sizes strides))
    (hne : sizes ≠ []) :
    logicalBytes buf e sizes strides = sliceBytes buf 0 (sizes.prod * e) := by
  unfold logicalBytes
  rw [if_neg hne]
  exact rowMajor_contig buf e sizes (effectiveStrides sizes strides) hcontig 0


/-! ## In-bounds emits: every general-path run of a consistent view lies
inside the buffer -/

theorem viewOffset_append : ∀ (st : List Int) (c u : List Nat),
    viewOffset st (c ++ u) = viewOffset st c + viewOffset (st.drop c.length) u := by
  intro st c
  induction c generalizing st with
  | nil => intro u; cases st <;> simp [viewOffset]
  | cons a cs ih =>
    intro u
    cases st with
    | nil => simp [viewOffset]
    | cons x sts =>
      simp only [List.cons_append, List.append_eq, viewOffset, List.length_cons,
        List.drop_succ_cons]
      rw [ih sts u]
      ring

theorem validTuple_append : ∀ {S₁ S₂ c₁ c₂ : List Nat}, validTuple S₁ c₁ →
    validTuple S₂ c₂ → validTuple (S₁ ++ S₂) (c₁ ++ c₂) := by
  intro S₁ S₂ c₁ c₂ h₁ h₂
  induction h₁ with
  | nil => simpa using h₂
  | cons ha _ ih => exact List.Forall₂.cons ha ih

/-- If every logical element of the view is in bounds, then for every leading
index tuple the `contiguousSize`-byte run the loop reads is in bounds: its
start offset is nonnegative and its end does not pass the buffer end. -/
theorem emit_runs_inBounds (sizes : List Nat) (strides : List Int) (elementSize : Nat)
    (bufLen : Nat) (fcd : Nat)
    (hfle : fcd ≤ sizes.length) (hlen : strides.length = sizes.length)
    (hcontig : contigStrides (sizes.drop fcd) (strides.drop fcd))
    (hpos : ∀ s ∈ sizes, 0 < s)
    (hin : ∀ c ∈ tuples sizes, 0 ≤ viewOffset strides c
        ∧ (viewOffset strides c + 1) * (elementSize : Int) ≤ (bufLen : Int)) :
    ∀ t, validTuple (sizes.take fcd) t →
      0 ≤ viewOffset strides t * (elementSize : Int)
      ∧ (viewOffset strides t * (elementSize : Int)).toNat
          + (sizes.drop fcd).prod * elementSize ≤ bufLen := by
  intro t hval
  have htlen : t.length = fcd := by
    have := validTuple_length hval
    rw [List.length_take] at this
    omega
  have hposd : ∀ s ∈ sizes.drop fcd, 0 < s := fun s hs => hpos s (List.drop_subset _ _ hs)
  have hvz : validTuple (sizes.drop fcd) (List.replicate (sizes.drop fcd).length 0) :=
    validTuple_replicate_zero hposd
  have hv0 : validTuple sizes (t ++ List.replicate (sizes.drop fcd).length 0) := by
    have := validTuple_append hval hvz
    rwa [List.take_append_drop] at this
  have hm0 := hin _ (mem_tuples_of_valid hv0)
  have hvm' : validTuple (sizes.drop fcd) ((sizes.drop fcd).map (fun s => s - 1)) :=
    validTuple_maxTuple hposd
  have hvm : validTuple sizes (t ++ (sizes.drop fcd).map (fun s => s - 1)) := by
    have := validTuple_append hval hvm'
    rwa [List.take_append_drop] at this
  have hmm := hin _ (mem_tuples_of_valid hvm)
  rw [viewOffset_append, htlen] at hm0 hmm
  have hz0 : viewOffset (strides.drop fcd) (List.replicate (sizes.drop fcd).length 0)
      = 0 :=
    viewOffset_of_all_zero _ _ (getD_replicate_zero _)
  have hmaxeq : viewOffset (strides.drop fcd) ((sizes.drop fcd).map (fun s => s - 1)) + 1
      = (((sizes.drop fcd).prod : Nat) : Int) :=
    viewOffset_maxTuple (sizes.drop fcd) (strides.drop fcd) hcontig hposd
  rw [hz0] at hm0
  have h0 : 0 ≤ viewOffset strides t := by
    have := hm0.1
    omega
  constructor
  · exact mul_nonneg h0 (by exact_mod_cast Nat.zero_le elementSize)
  · obtain ⟨_, hup⟩ := hmm
    have heq : viewOffset strides t
          + viewOffset (strides.drop fcd) ((sizes.drop fcd).map (fun s => s - 1)) + 1
        = viewOffset strides t + (((sizes.drop fcd).prod : Nat) : Int) := by omega
    rw [heq] at hup
    have hcast : (viewOffset strides t + (((sizes.drop fcd).prod : Nat) : Int))
          * (elementSize : Int)
        = ((((viewOffset strides t).toNat + (sizes.drop fcd).prod) * elementSize
            : Nat) : Int) := by
      push_cast
      rw [Int.toNat_of_nonneg h0]
    rw [hcast] at hup
    have h2 : ((viewOffset strides t).toNat + (sizes.drop fcd).prod) * elementSize
        ≤ bufLen := by exact_mod_cast hup
    have hvte : viewOffset strides t * (elementSize : Int)
        = (((viewOffset strides t).toNat * elementSize : Nat) : Int) := by
      rw [Nat.cast_mul, Int.toNat_of_nonneg h0]
    rw [hvte, Int.toNat_natCast]
    calc (viewOffset strides t).toNat * elementSize + (sizes.drop fcd).prod * elementSize
        = ((viewOffset strides t).toNat + (sizes.drop fcd).prod) * elementSize := by ring
      _ ≤ bufLen := h2

/-! ## Branch reductions of `serialize` -/

theorem serialize_eq_empty (machineEnd : ThriftTensorEndianness) (strides : List Int)
    (data : IOBuf) (dtype : ThriftTensorDataType) (elementSize : Nat)
    (endianness : ThriftTensorEndianness) (sharing : SharingMode)
    (hchain : data.chained = false)
    (hend : (if endianness = ThriftTensorEndianness.NATIVE then machineEnd else endianness)
      = machineEnd)
    (hstr : strides = []) :
    serialize machineEnd [] strides data dtype elementSize endianness sharing
      = .ok ⟨⟨dtype, machineEnd, [], []⟩, emptyIOBuf⟩ := by
  subst hstr
  simp only [serialize]
  rw [if_neg (by simp [hchain]), if_neg (by simp [hend]), if_neg (by simp),
    if_neg (by simp [computeContiguity]), if_pos (by simp), hend]

theorem serialize_eq_fast (machineEnd : ThriftTensorEndianness) (sizes : List Nat)
    (strides : List Int) (data : IOBuf) (dtype : ThriftTensorDataType) (elementSize : Nat)
    (endianness : ThriftTensorEndianness) (sharing : SharingMode)
    (hchain : data.chained = false)
    (hend : (if endianness = ThriftTensorEndianness.NATIVE then machineEnd else endianness)
      = machineEnd)
    (hstr : ¬(strides ≠ [] ∧ strides.length ≠ sizes.length))
    (hcd : ¬((computeContiguity sizes strides).2
        * (sizes.take (computeContiguity sizes strides).1).prod * elementSize
      < (computeContiguity sizes strides).2 * elementSize))
    (hsz : ¬(sizes.length = 0))
    (hfcd : (computeContiguity sizes strides).1 = 0)
    (hbuf : ¬(data.bytes.length < (computeContiguity sizes strides).2
        * (sizes.take (computeContiguity sizes strides).1).prod * elementSize)) :
    serialize machineEnd sizes strides data dtype elementSize endianness sharing
      = .ok ⟨⟨dtype, machineEnd, sizes,
          [applySharingMode
            (data.bytes.take ((computeContiguity sizes strides).2
              * (sizes.take (computeContiguity sizes strides).1).prod * elementSize))
            data.managedOne sharing]⟩,
        emptyIOBuf⟩ := by
  simp only [serialize]
  rw [if_neg (by simp [hchain]), if_neg (by simp [hend]), if_neg hstr, if_neg hcd,
    if_neg hsz, if_pos hfcd, if_neg hbuf, hend]

theorem serialize_eq_general (machineEnd : ThriftTensorEndianness) (sizes : List Nat)
    (strides : List Int) (data : IOBuf) (dtype : ThriftTensorDataType) (elementSize : Nat)
    (endianness : ThriftTensorEndianness) (sharing : SharingMode)
    (hchain : data.chained = false)
    (hend : (if endianness = ThriftTensorEndianness.NATIVE then machineEnd else endianness)
      = machineEnd)
    (hstr : ¬(strides ≠ [] ∧ strides.length ≠ sizes.length))
    (hcd : ¬((computeContiguity sizes strides).2
        * (sizes.take (computeContiguity sizes strides).1).prod * elementSize
      < (computeContiguity sizes strides).2 * elementSize))
    (hsz : ¬(sizes.length = 0))
    (hfcd : ¬((computeContiguity sizes strides).1 = 0)) :
    serialize machineEnd sizes strides data dtype elementSize endianness sharing
      = match generalPathResult sizes strides elementSize data
          (computeContiguity sizes strides).2 (computeContiguity sizes strides).1
          (computeMayShare sharing data) with
        | .ok chunks => .ok ⟨⟨dtype, machineEnd, sizes, chunks⟩, data⟩
        | .error e => .error e := by
  simp only [serialize]
  rw [if_neg (by simp [hchain]), if_neg (by simp [hend]), if_neg hstr, if_neg hcd,
    if_neg hsz, if_neg hfcd, hend]


/-- The fast path (`firstContiguousDim == 0`): one trimmed chunk, equal to the
logical content. -/
theorem serialize_fast_payload (machineEnd : ThriftTensorEndianness) (sizes : List Nat)
    (strides : List Int) (data : IOBuf) (dtype : ThriftTensorDataType) (elementSize : Nat)
    (endianness : ThriftTensorEndianness) (sharing : SharingMode)
    (hchain : data.chained = false)
    (hend : (if endianness = ThriftTensorEndianness.NATIVE then machineEnd else endianness)
      = machineEnd)
    (hstr : ¬(strides ≠ [] ∧ strides.length ≠ sizes.length))
    (hne : sizes ≠ [])
    (hcc : computeContiguity sizes strides = (0, sizes.prod))
    (hcontig : contigStrides sizes (effectiveStrides sizes strides))
    (hpos : ∀ s ∈ sizes, 0 < s)
    (hin : viewInBounds data.bytes.length elementSize sizes strides) :
    serialize machineEnd sizes strides data dtype elementSize endianness sharing
      = .ok ⟨⟨dtype, machineEnd, sizes,
          [applySharingMode (data.bytes.take (sizes.prod * elementSize))
            data.managedOne sharing]⟩, emptyIOBuf⟩
    ∧ data.bytes.take (sizes.prod * elementSize)
        = logicalBytes data.bytes elementSize sizes strides := by
  have hble : sizes.prod * elementSize ≤ data.bytes.length :=
    inBounds_prod_le sizes strides elementSize data.bytes.length hpos hcontig hin
  constructor
  · have heq := serialize_eq_fast machineEnd sizes strides data dtype elementSize
      endianness sharing hchain hend hstr
      (by rw [hcc]; simp)
      (by simpa using hne)
      (by rw [hcc])
      (by rw [hcc]; simp; omega)
    rw [hcc] at heq
    simpa using heq
  · rw [contig_logicalBytes data.bytes elementSize sizes strides hcontig hne]
    exact (sliceBytes_eq_take data.bytes (sizes.prod * elementSize) hble).symm

/-- Master payload theorem: on every consistent view with positive dimension
sizes, `serialize` succeeds and its payload is exactly the row-major
flattening of the logical content. -/
theorem serialize_payload_eq_logical (machineEnd : ThriftTensorEndianness)
    (sizes : List Nat) (strides : List Int) (data : IOBuf)
    (dtype : ThriftTensorDataType) (elementSize : Nat)
    (endianness : ThriftTensorEndianness) (sharing : SharingMode)
    (hchain : data.chained = false)
    (hend : (if endianness = ThriftTensorEndianness.NATIVE then machineEnd else endianness)
      = machineEnd)
    (hstr : strides = [] ∨ strides.length = sizes.length)
    (hpos : ∀ s ∈ sizes, 0 < s)
    (hbound : ∀ s ∈ sizes, s < uint64Mod)
    (hin : viewInBounds data.bytes.length elementSize sizes strides) :
    ∃ r, serialize machineEnd sizes strides data dtype elementSize endianness sharing
        = .ok r
      ∧ payloadBytes r.out = logicalBytes data.bytes elementSize sizes strides
      ∧ r.out.sizes = sizes ∧ r.out.dataType = dtype
      ∧ r.out.endianness = machineEnd
      ∧ r.out.data.map Chunk.bytes = chunkBytesSpec sizes strides elementSize data.bytes
        := by
  by_cases hsz : sizes = []
  · subst hsz
    have hstr' : strides = [] := by
      rcases hstr with h | h
      · exact h
      · exact List.length_eq_zero.mp (by simpa using h)
    rw [serialize_eq_empty machineEnd strides data dtype elementSize endianness sharing
      hchain hend hstr']
    exact ⟨_, rfl, by simp [payloadBytes, logicalBytes], rfl, rfl, rfl,
      by simp [chunkBytesSpec]⟩
  · have hstrc : ¬(strides ≠ [] ∧ strides.length ≠ sizes.length) := by
      rcases hstr with h | h
      · simp [h]
      · simp [h]
    by_cases hstre : strides = []
    · -- implicit row-major strides: fast path
      subst hstre
      have hcc : computeContiguity sizes [] = (0, sizes.prod) := by
        simp [computeContiguity]
      have hcontig : contigStrides sizes (effectiveStrides sizes []) := by
        unfold effectiveStrides
        rw [if_pos rfl]
        exact contigStrides_defaultStrides sizes
      obtain ⟨heq, hpay⟩ := serialize_fast_payload machineEnd sizes [] data dtype
        elementSize endianness sharing hchain hend hstrc hsz hcc hcontig hpos hin
      refine ⟨_, heq, ?_, rfl, rfl, rfl, ?_⟩
      · simp only [payloadBytes, List.map_cons, List.map_nil, List.flatten,
          applySharingMode_bytes, List.append_nil]
        exact hpay
      · unfold chunkBytesSpec
        rw [hcc]
        simp [hsz, applySharingMode_bytes]
    · -- explicit strides
      have hlen : strides.length = sizes.length := by
        rcases hstr with h | h
        · exact absurd h hstre
        · exact h
      obtain ⟨hfle, hce, hgetd, hmax⟩ := computeContiguity_spec sizes strides hstre hlen
      have hcontigdrop := computeContiguity_contigStrides sizes strides hstre hlen
      by_cases hfcd0 : (computeContiguity sizes strides).1 = 0
      · -- fully contiguous: fast path
        have hcc : computeContiguity sizes strides = (0, sizes.prod) := by
          have h2 : (computeContiguity sizes strides).2 = sizes.prod := by
            rw [hce, hfcd0]
            simp
          rw [Prod.ext_iff]
          exact ⟨hfcd0, h2⟩
        have hcontig : contigStrides sizes (effectiveStrides sizes strides) := by
          unfold effectiveStrides
          rw [if_neg hstre]
          have hh := hcontigdrop
          rwa [hfcd0, List.drop_zero, List.drop_zero] at hh
        obtain ⟨heq, hpay⟩ := serialize_fast_payload machineEnd sizes strides data dtype
          elementSize endianness sharing hchain hend hstrc hsz hcc hcontig hpos hin
        refine ⟨_, heq, ?_, rfl, rfl, rfl, ?_⟩
        · simp only [payloadBytes, List.map_cons, List.map_nil, List.flatten,
            applySharingMode_bytes, List.append_nil]
          exact hpay
        · unfold chunkBytesSpec
          rw [hcc]
          simp [hsz, applySharingMode_bytes]
      · -- general (odometer) path
        have hfcdpos : 0 < (computeContiguity sizes strides).1 := by omega
        have hT : 0 < (sizes.take (computeContiguity sizes strides).1).prod :=
          List.prod_pos (fun a ha => hpos a (List.take_subset _ _ ha))
        have hcd : ¬((computeContiguity sizes strides).2
            * (sizes.take (computeContiguity sizes strides).1).prod * elementSize
          < (computeContiguity sizes strides).2 * elementSize) := by
          have h1 : (computeContiguity sizes strides).2 * 1 * elementSize
              ≤ (computeContiguity sizes strides).2
                * (sizes.take (computeContiguity sizes strides).1).prod * elementSize :=
            Nat.mul_le_mul_right _ (Nat.mul_le_mul_left _ hT)
          have h2 : (computeContiguity sizes strides).2 * 1 * elementSize
              = (computeContiguity sizes strides).2 * elementSize := by ring
          omega
        have hinS : ∀ c ∈ tuples sizes, 0 ≤ viewOffset strides c
            ∧ (viewOffset strides c + 1) * (elementSize : Int)
              ≤ (data.bytes.length : Int) := by
          intro c hc
          have hic := hin c hc
          rwa [effectiveStrides, if_neg hstre] at hic
        have hsafe := emit_runs_inBounds sizes strides elementSize data.bytes.length
          (computeContiguity sizes strides).1 hfle hlen hcontigdrop hpos hinS
        rw [← hce] at hsafe
        rw [serialize_eq_general machineEnd sizes strides data dtype elementSize
          endianness sharing hchain hend hstrc hcd (by simpa using hsz) hfcd0]
        rw [generalPathResult_of_chunks (generalPathChunks_eq sizes strides elementSize
          data (computeContiguity sizes strides).2 (computeContiguity sizes strides).1
          (computeMayShare sharing data) hfcdpos hfle (by omega)
          (fun a ha => hpos a (List.take_subset _ _ ha)) hbound hsafe)]
        refine ⟨_, rfl, ?_, rfl, rfl, rfl, ?_⟩
        · have hchunks := chunks_flatten_eq_rowMajor sizes strides elementSize data
            (computeContiguity sizes strides).1 (computeMayShare sharing data)
            hfle hlen hcontigdrop
          rw [← hce] at hchunks
          unfold logicalBytes effectiveStrides
          rw [if_neg hsz, if_neg hstre]
          exact hchunks
        · unfold chunkBytesSpec
          rw [if_neg (by simpa using hsz), if_neg hfcd0, List.map_map]
          rfl


/-! ## The chunk invariant of the general path -/

/-- Every chunk accumulated by the loop has the decision flag
`emitShared mayShare contiguousSize` and length `contiguousSize`. -/
def ChunkInv (contiguousSize : Nat) (mayShare : Bool) : OdoState → Prop
  | .running _ _ _ acc => ∀ ch ∈ acc,
      ch.shared = emitShared mayShare contiguousSize ∧ ch.bytes.length = contiguousSize
  | .done cs => ∀ ch ∈ cs,
      ch.shared = emitShared mayShare contiguousSize ∧ ch.bytes.length = contiguousSize
  | .failed => True

theorem odoStep_chunkInv (sizes : List Nat) (strides : List Int) (elementSize : Nat)
    (data : IOBuf) (contiguousSize : Nat) (fcd : Nat) (mayShare : Bool)
    (s : OdoState) (h : ChunkInv contiguousSize mayShare s) :
    ChunkInv contiguousSize mayShare
      (odoStep sizes strides elementSize data contiguousSize fcd mayShare s) := by
  cases s with
  | done r => exact h
  | failed => exact h
  | running idx off c acc =>
    simp only [odoStep]
    by_cases h1 : idx < 0
    · rw [if_pos h1]; exact h
    · rw [if_neg h1]
      by_cases h2 : idx = (fcd : Int)
      · rw [if_pos h2]
        by_cases hf : emitShared mayShare contiguousSize = true
            ∧ (off < 0 ∨ data.bytes.length < off.toNat + contiguousSize)
        · rw [if_pos hf]
          exact trivial
        · rw [if_neg hf]
          intro ch hch
          simp only [List.mem_append, List.mem_singleton] at hch
          rcases hch with hch | hch
          · exact h ch hch
          · subst hch
            exact ⟨rfl, length_sliceBytes _ _ _⟩
      · rw [if_neg h2]
        by_cases h3 : (c.getD idx.toNat 0 + 1) % uint64Mod = sizes.getD idx.toNat 0
        · rw [if_pos h3]; exact h
        · rw [if_neg h3]; exact h

theorem odoRun_chunkInv (sizes : List Nat) (strides : List Int) (elementSize : Nat)
    (data : IOBuf) (contiguousSize : Nat) (fcd : Nat) (mayShare : Bool) :
    ∀ (fuel : Nat) (s : OdoState), ChunkInv contiguousSize mayShare s →
    ChunkInv contiguousSize mayShare
      (odoRun sizes strides elementSize data contiguousSize fcd mayShare fuel s) := by
  intro fuel
  induction fuel with
  | zero => intro s h; exact h
  | succ n ih =>
    intro s h
    rw [odoRun_succ]
    exact ih _ (odoStep_chunkInv sizes strides elementSize data contiguousSize fcd
      mayShare s h)

theorem generalPathChunks_inv (sizes : List Nat) (strides : List Int) (elementSize : Nat)
    (data : IOBuf) (contiguousElems : Nat) (fcd : Nat) (mayShare : Bool)
    (chunks : List Chunk)
    (h : generalPathChunks sizes strides elementSize data contiguousElems fcd mayShare
      = some chunks) :
    ∀ ch ∈ chunks, ch.shared = emitShared mayShare (contiguousElems * elementSize)
      ∧ ch.bytes.length = contiguousElems * elementSize := by
  unfold generalPathChunks at h
  have hinv := odoRun_chunkInv sizes strides elementSize data
    (contiguousElems * elementSize) fcd mayShare (canonicalFuel sizes fcd)
    (odoInit fcd) (by intro ch hch; simp [odoInit] at hch)
  revert h hinv
  cases odoRun sizes strides elementSize data (contiguousElems * elementSize) fcd mayShare
      (canonicalFuel sizes fcd) (odoInit fcd) with
  | done cs =>
    intro h hinv
    simp only [Option.some.injEq] at h
    subst h
    exact hinv
  | failed => intro h _; exact absurd h (by simp)
  | running _ _ _ _ => intro h _; exact absurd h (by simp)


/-! ## Inversion of `serialize` outcomes -/

/-- Everything a successful `serialize` call implies: the entry checks
passed, the header fields, and the path taken (with the buffer's final
state). -/
theorem serialize_ok_inv (machineEnd : ThriftTensorEndianness) (sizes : List Nat)
    (strides : List Int) (data : IOBuf) (dtype : ThriftTensorDataType)
    (elementSize : Nat) (endianness : ThriftTensorEndianness) (sharing : SharingMode)
    (r : SerializeResult)
    (hok : serialize machineEnd sizes strides data dtype elementSize endianness sharing
      = .ok r) :
    data.chained = false
    ∧ (if endianness = ThriftTensorEndianness.NATIVE then machineEnd else endianness)
        = machineEnd
    ∧ ¬(strides ≠ [] ∧ strides.length ≠ sizes.length)
    ∧ r.out.endianness = machineEnd ∧ r.out.sizes = sizes ∧ r.out.dataType = dtype
    ∧ (sizes.length = 0 → r.out.data = [] ∧ r.dataAfter = emptyIOBuf)
    ∧ (sizes.length ≠ 0 → (computeContiguity sizes strides).1 = 0 →
        r.dataAfter = emptyIOBuf
        ∧ r.out.data = [applySharingMode
            (data.bytes.take ((computeContiguity sizes strides).2
              * (sizes.take (computeContiguity sizes strides).1).prod * elementSize))
            data.managedOne sharing])
    ∧ (sizes.length ≠ 0 → (computeContiguity sizes strides).1 ≠ 0 →
        r.dataAfter = data
        ∧ generalPathChunks sizes strides elementSize data
            (computeContiguity sizes strides).2 (computeContiguity sizes strides).1
            (computeMayShare sharing data) = some r.out.data) := by
  by_cases h1 : data.chained = true
  · simp [serialize, h1] at hok
  · by_cases h2 : (if endianness = ThriftTensorEndianness.NATIVE then machineEnd
        else endianness) = machineEnd
    · by_cases h3 : strides ≠ [] ∧ strides.length ≠ sizes.length
      · simp [serialize, h1, h2, h3] at hok
      · by_cases h4 : (computeContiguity sizes strides).2
            * (sizes.take (computeContiguity sizes strides).1).prod * elementSize
          < (computeContiguity sizes strides).2 * elementSize
        · simp [serialize, h1, h2, h3, h4] at hok
        · by_cases h5 : sizes.length = 0
          · have hsz : sizes = [] := List.length_eq_zero.mp h5
            subst hsz
            have hstr' : strides = [] := by
              rcases List.eq_nil_or_concat strides with h | _
              · exact h
              · by_contra hne
                exact h3 ⟨hne, by simpa using fun hl => hne (List.length_eq_zero.mp hl)⟩
            rw [serialize_eq_empty machineEnd strides data dtype elementSize endianness
              sharing (by simpa using h1) h2 hstr'] at hok
            obtain rfl := Except.ok.inj hok
            refine ⟨by simpa using h1, h2, h3, rfl, rfl, rfl, fun _ => ⟨rfl, rfl⟩,
              fun h _ => absurd rfl h, fun h _ => absurd rfl h⟩
          · by_cases h6 : (computeContiguity sizes strides).1 = 0
            · by_cases h7 : data.bytes.length < (computeContiguity sizes strides).2
                  * (sizes.take (computeContiguity sizes strides).1).prod * elementSize
              · have h7' : data.bytes.length
                    < (computeContiguity sizes strides).2 * elementSize := by
                  rw [h6] at h7
                  simpa using h7
                simp [serialize, h1, h2, h3, h4, h5, h6, h7'] at hok
              · rw [serialize_eq_fast machineEnd sizes strides data dtype elementSize
                  endianness sharing (by simpa using h1) h2 h3 h4 h5 h6 h7] at hok
                obtain rfl := Except.ok.inj hok
                exact ⟨by simpa using h1, h2, h3, rfl, rfl, rfl, fun h => absurd h h5,
                  fun _ _ => ⟨rfl, rfl⟩, fun _ h => absurd h6 h⟩
            · rw [serialize_eq_general machineEnd sizes strides data dtype elementSize
                endianness sharing (by simpa using h1) h2 h3 h4 h5 h6] at hok
              revert hok
              cases hq : generalPathResult sizes strides elementSize data
                  (computeContiguity sizes strides).2 (computeContiguity sizes strides).1
                  (computeMayShare sharing data) with
              | error e => intro hok; exact absurd hok (by simp)
              | ok chunks =>
                intro hok
                obtain rfl := Except.ok.inj hok
                exact ⟨by simpa using h1, h2, h3, rfl, rfl, rfl, fun h => absurd h h5,
                  fun _ h => absurd h h6,
                  fun _ _ => ⟨rfl, generalPathChunks_of_result hq⟩⟩
    · simp [serialize, h1, h2] at hok

/-- Which inputs can stand behind each entry-check error: the general path
itself only ever reports `cloneOutOfRange` or `fuelExhausted`. -/
theorem serialize_error_shape (machineEnd : ThriftTensorEndianness) (sizes : List Nat)
    (strides : List Int) (data : IOBuf) (dtype : ThriftTensorDataType)
    (elementSize : Nat) (endianness : ThriftTensorEndianness) (sharing : SharingMode)
    (e : SerializeError)
    (h : serialize machineEnd sizes strides data dtype elementSize endianness sharing
      = .error e) :
    (e = SerializeError.chainedBuffer → data.chained = true)
    ∧ (e = SerializeError.nonNativeEndianness → data.chained = false
        ∧ (if endianness = ThriftTensorEndianness.NATIVE then machineEnd else endianness)
            ≠ machineEnd)
    ∧ (e = SerializeError.strideLengthMismatch → data.chained = false
        ∧ (if endianness = ThriftTensorEndianness.NATIVE then machineEnd else endianness)
            = machineEnd
        ∧ strides ≠ [] ∧ strides.length ≠ sizes.length) := by
  by_cases h1 : data.chained = true
  · simp only [serialize] at h
    rw [if_pos h1] at h
    simp only [Except.error.injEq] at h
    subst h
    exact ⟨fun _ => h1, fun hc => SerializeError.noConfusion hc,
      fun hc => SerializeError.noConfusion hc⟩
  · by_cases h2 : (if endianness = ThriftTensorEndianness.NATIVE then machineEnd
        else endianness) = machineEnd
    · by_cases h3 : strides ≠ [] ∧ strides.length ≠ sizes.length
      · simp only [serialize] at h
        rw [if_neg h1, if_neg (by simpa using h2), if_pos h3] at h
        simp only [Except.error.injEq] at h
        subst h
        exact ⟨fun hc => SerializeError.noConfusion hc,
          fun hc => SerializeError.noConfusion hc,
          fun _ => ⟨by simpa using h1, h2, h3.1, h3.2⟩⟩
      · by_cases h4 : (computeContiguity sizes strides).2
            * (sizes.take (computeContiguity sizes strides).1).prod * elementSize
          < (computeContiguity sizes strides).2 * elementSize
        · simp only [serialize] at h
          rw [if_neg h1, if_neg (by simpa using h2), if_neg h3, if_pos h4] at h
          simp only [Except.error.injEq] at h
          subst h
          exact ⟨fun hc => SerializeError.noConfusion hc,
            fun hc => SerializeError.noConfusion hc,
            fun hc => SerializeError.noConfusion hc⟩
        · by_cases h5 : sizes.length = 0
          · simp only [serialize] at h
            rw [if_neg h1, if_neg (by simpa using h2), if_neg h3, if_neg h4,
              if_pos h5] at h
            exact absurd h (by simp)
          · by_cases h6 : (computeContiguity sizes strides).1 = 0
            · by_cases h7 : data.bytes.length < (computeContiguity sizes strides).2
                  * (sizes.take (computeContiguity sizes strides).1).prod * elementSize
              · simp only [serialize] at h
                rw [if_neg h1, if_neg (by simpa using h2), if_neg h3, if_neg h4,
                  if_neg h5, if_pos h6, if_pos h7] at h
                simp only [Except.error.injEq] at h
                subst h
                exact ⟨fun hc => SerializeError.noConfusion hc,
                  fun hc => SerializeError.noConfusion hc,
                  fun hc => SerializeError.noConfusion hc⟩
              · rw [serialize_eq_fast machineEnd sizes strides data dtype elementSize
                  endianness sharing (by simpa using h1) h2 h3 h4 h5 h6 h7] at h
                exact absurd h (by simp)
            · rw [serialize_eq_general machineEnd sizes strides data dtype elementSize
                endianness sharing (by simpa using h1) h2 h3 h4 h5 h6] at h
              revert h
              cases hq : generalPathResult sizes strides elementSize data
                  (computeContiguity sizes strides).2 (computeContiguity sizes strides).1
                  (computeMayShare sharing data) with
              | ok chunks => intro h; exact absurd h (by simp)
              | error e' =>
                intro h
                simp only [Except.error.injEq] at h
                subst h
                rcases generalPathResult_error hq with he | he
                all_goals subst he
                all_goals exact ⟨fun hc => SerializeError.noConfusion hc,
                  fun hc => SerializeError.noConfusion hc,
                  fun hc => SerializeError.noConfusion hc⟩
    · simp only [serialize] at h
      rw [if_neg h1, if_pos (by simpa using h2)] at h
      simp only [Except.error.injEq] at h
      subst h
      exact ⟨fun hc => SerializeError.noConfusion hc,
        fun _ => ⟨by simpa using h1, h2⟩,
        fun hc => SerializeError.noConfusion hc⟩

/-- The chained-buffer assertion fires exactly on a chained input. -/
theorem serialize_chained_iff (machineEnd : ThriftTensorEndianness) (sizes : List Nat)
    (strides : List Int) (data : IOBuf) (dtype : ThriftTensorDataType)
    (elementSize : Nat) (endianness : ThriftTensorEndianness) (sharing : SharingMode) :
    serialize machineEnd sizes strides data dtype elementSize endianness sharing
        = .error .chainedBuffer
      ↔ data.chained = true := by
  constructor
  · intro h
    exact (serialize_error_shape machineEnd sizes strides data dtype elementSize
      endianness sharing .chainedBuffer h).1 rfl
  · intro h
    simp [serialize, h]

/-- The endianness `CHECK` fires exactly when the resolved byte order is not
the machine's; in particular never for `NATIVE`. -/
theorem serialize_nonNative_iff (machineEnd : ThriftTensorEndianness) (sizes : List Nat)
    (strides : List Int) (data : IOBuf) (dtype : ThriftTensorDataType)
    (elementSize : Nat) (endianness : ThriftTensorEndianness) (sharing : SharingMode) :
    serialize machineEnd sizes strides data dtype elementSize endianness sharing
        = .error .nonNativeEndianness
      ↔ (data.chained = false
          ∧ (if endianness = ThriftTensorEndianness.NATIVE then machineEnd else endianness)
              ≠ machineEnd) := by
  constructor
  · intro h
    exact (serialize_error_shape machineEnd sizes strides data dtype elementSize
      endianness sharing .nonNativeEndianness h).2.1 rfl
  · intro ⟨h1, h2⟩
    rw [serialize, if_neg (by simp [h1]), if_pos (by simpa using h2)]


/-- The stride-length `DCHECK` fires exactly when nonempty strides disagree
with the number of dimensions (and the earlier checks passed). -/
theorem serialize_strideLen_iff (machineEnd : ThriftTensorEndianness) (sizes : List Nat)
    (strides : List Int) (data : IOBuf) (dtype : ThriftTensorDataType)
    (elementSize : Nat) (endianness : ThriftTensorEndianness) (sharing : SharingMode) :
    serialize machineEnd sizes strides data dtype elementSize endianness sharing
        = .error .strideLengthMismatch
      ↔ (data.chained = false
          ∧ (if endianness = ThriftTensorEndianness.NATIVE then machineEnd else endianness)
              = machineEnd
          ∧ strides ≠ [] ∧ strides.length ≠ sizes.length) := by
  constructor
  · intro h
    exact (serialize_error_shape machineEnd sizes strides data dtype elementSize
      endianness sharing .strideLengthMismatch h).2.2 rfl
  · intro ⟨h1, h2, h3, h4⟩
    rw [serialize, if_neg (by simp [h1]), if_neg (by simp [h2]), if_pos ⟨h3, h4⟩]

/-! ## Forced general path over a row-major view (fast-path equivalence) -/

theorem defaultStrides_drop : ∀ (sizes : List Nat) (n : Nat),
    (defaultStrides sizes).drop n = defaultStrides (sizes.drop n) := by
  intro sizes
  induction sizes with
  | nil => intro n; simp [defaultStrides]
  | cons s ss ih =>
    intro n
    cases n with
    | zero => simp
    | succ n =>
      simp only [defaultStrides, List.drop_succ_cons]
      exact ih n

theorem effectiveStrides_default (sizes : List Nat) :
    effectiveStrides sizes (defaultStrides sizes) = defaultStrides sizes := by
  unfold effectiveStrides
  split <;> simp [*]

/-- Forcing the odometer at an arbitrary split point `n` over a row-major
view reproduces the logical content, i.e. exactly what the fast path emits. -/
theorem forcedGeneral_eq_logical (sizes : List Nat) (elementSize : Nat) (data : IOBuf)
    (n : Nat) (mayShare : Bool)
    (hn : 0 < n) (hns : n ≤ sizes.length)
    (hpos : ∀ s ∈ sizes, 0 < s) (hbound : ∀ s ∈ sizes, s < uint64Mod)
    (hin : viewInBounds data.bytes.length elementSize sizes (defaultStrides sizes)) :
    ∃ chunks,
      generalPathChunks sizes (defaultStrides sizes) elementSize data
          ((sizes.drop n).prod) n mayShare = some chunks
      ∧ (chunks.map Chunk.bytes).flatten
          = logicalBytes data.bytes elementSize sizes (defaultStrides sizes) := by
  have hlen : (defaultStrides sizes).length = sizes.length := defaultStrides_length sizes
  have hcontig : contigStrides (sizes.drop n) ((defaultStrides sizes).drop n) := by
    rw [defaultStrides_drop]
    exact contigStrides_defaultStrides _
  have hinS : ∀ c ∈ tuples sizes, 0 ≤ viewOffset (defaultStrides sizes) c
      ∧ (viewOffset (defaultStrides sizes) c + 1) * (elementSize : Int)
        ≤ (data.bytes.length : Int) := by
    intro c hc
    have hic := hin c hc
    rwa [effectiveStrides_default] at hic
  have hsafe := emit_runs_inBounds sizes (defaultStrides sizes) elementSize
    data.bytes.length n hns hlen hcontig hpos hinS
  refine ⟨_, generalPathChunks_eq sizes (defaultStrides sizes) elementSize data
    ((sizes.drop n).prod) n mayShare hn hns (by omega)
    (fun a ha => hpos a (List.take_subset _ _ ha)) hbound hsafe, ?_⟩
  have hflat := chunks_flatten_eq_rowMajor sizes (defaultStrides sizes) elementSize data
    n mayShare hns hlen hcontig
  rw [hflat]
  unfold logicalBytes
  have hne : sizes ≠ [] := by
    intro h
    subst h
    simp at hns
    omega
  rw [if_neg hne, effectiveStrides_default]


/-! ## Claim theorems -/

/-- C1 (counterexample): at the zero-size shape `[0,2]` with strides `[5,1]`
— a view addressing no elements, hence in bounds of its buffer, whose
row-major flattening is `[]` — `serialize` produces no payload: the
`DCHECK_LE(contiguousSize, dataSize)` assertion fails (2 > 0); in release
builds the odometer would instead run with a zero-radix leading dimension,
wrapping its 64-bit counter through out-of-bounds runs. The claim's "for
every shape" therefore fails on zero-size shapes. -/
theorem claim1_counterexample :
    serialize .LITTLE [0, 2] [5, 1] ⟨false, false, [7, 7]⟩ .BYTE 1 .NATIVE .SHARE_NONE
        = .error .contiguousExceedsData
    ∧ logicalBytes [7, 7] 1 [0, 2] [5, 1] = []
    ∧ viewInBounds 2 1 [0, 2] [5, 1] := by
  refine ⟨by decide, by decide, ?_⟩
  intro c hc
  simp [tuples] at hc

/-- C1 (amended): for every shape with positive dimension sizes (each below
`2 ^ 64`), every strides sequence consistent with a single contiguous backing
buffer, and every sharing mode, the payload produced by `serialize` (and
returned unchanged by `deserialize`) is byte-for-byte the row-major
flattening of the logical elements addressed by (shape, strides, buffer);
the `[2,3]` × `[1,2]` instance of the claim is the witness below. -/
theorem claim1_roundtrip_rowMajor (machineEnd : ThriftTensorEndianness)
    (sizes : List Nat) (strides : List Int) (data : IOBuf)
    (dtype : ThriftTensorDataType) (elementSize : Nat) (sharing : SharingMode)
    (hchain : data.chained = false)
    (hstr : strides = [] ∨ strides.length = sizes.length)
    (hpos : ∀ s ∈ sizes, 0 < s)
    (hbound : ∀ s ∈ sizes, s < uint64Mod)
    (hin : viewInBounds data.bytes.length elementSize sizes strides) :
    ∃ r, serialize machineEnd sizes strides data dtype elementSize .NATIVE sharing = .ok r
      ∧ payloadBytes r.out = logicalBytes data.bytes elementSize sizes strides
      ∧ deserialize r.out dtype
          = .ok (logicalBytes data.bytes elementSize sizes strides) := by
  obtain ⟨r, hok, hpay, _, hdt, _⟩ := serialize_payload_eq_logical machineEnd sizes
    strides data dtype elementSize .NATIVE sharing hchain (by simp) hstr hpos hbound hin
  refine ⟨r, hok, hpay, ?_⟩
  unfold deserialize
  rw [if_pos hdt, hpay]

/-- C1 (witness): shape `[2,3]`, strides `[1,2]` over buffer
`[10,11,12,13,14,15]` serializes to payload order
`buffer[0], buffer[2], buffer[4], buffer[1], buffer[3], buffer[5]`. -/
theorem claim1_roundtrip_rowMajor_witness :
    ((⟨false, true, [10, 11, 12, 13, 14, 15]⟩ : IOBuf).chained = false
      ∧ (([1, 2] : List Int) = [] ∨ ([1, 2] : List Int).length = ([2, 3] : List Nat).length)
      ∧ (∀ s ∈ ([2, 3] : List Nat), 0 < s)
      ∧ (∀ s ∈ ([2, 3] : List Nat), s < uint64Mod)
      ∧ viewInBounds (⟨false, true, [10, 11, 12, 13, 14, 15]⟩ : IOBuf).bytes.length 1
          [2, 3] [1, 2])
    ∧ (∃ r, serialize .LITTLE [2, 3] [1, 2] ⟨false, true, [10, 11, 12, 13, 14, 15]⟩
          .BYTE 1 .NATIVE .SHARE_NONE = .ok r
        ∧ payloadBytes r.out = logicalBytes [10, 11, 12, 13, 14, 15] 1 [2, 3] [1, 2]
        ∧ deserialize r.out .BYTE
            = .ok (logicalBytes [10, 11, 12, 13, 14, 15] 1 [2, 3] [1, 2]))
    ∧ logicalBytes [10, 11, 12, 13, 14, 15] 1 [2, 3] [1, 2]
        = [10, 12, 14, 11, 13, 15] :=
  ⟨⟨rfl, by decide, by decide, by decide, by decide⟩,
   claim1_roundtrip_rowMajor .LITTLE [2, 3] [1, 2] ⟨false, true, [10, 11, 12, 13, 14, 15]⟩
     .BYTE 1 .SHARE_NONE rfl (by decide) (by decide) (by decide) (by decide),
   by decide⟩

/-- C2 (counterexample): the views `([0,2], strides [3,1])` and
`([0,2], implicit strides)` over the same buffer have identical (empty)
logical content, but the first aborts in the serializer (zero-size leading
dimension reaching the general path) while the second serializes to an empty
payload — so their payloads are not byte-identical as claimed. -/
theorem claim2_counterexample :
    logicalBytes [9, 9] 1 [0, 2] [3, 1] = logicalBytes [9, 9] 1 [0, 2] []
    ∧ (serialize .LITTLE [0, 2] [3, 1] ⟨false, true, [9, 9]⟩ .BYTE 1 .NATIVE
          .SHARE_NONE).map (fun r => payloadBytes r.out)
      ≠ (serialize .LITTLE [0, 2] [] ⟨false, true, [9, 9]⟩ .BYTE 1 .NATIVE
          .SHARE_NONE).map (fun r => payloadBytes r.out) := by
  constructor
  · decide
  · decide

/-- C2 (amended): restricted to views with positive dimension sizes, both
halves of the claim hold: (a) two consistent views with identical logical
content produce byte-identical payloads, for any sharing modes; (b) over a
view whose strides are the implicit row-major ones, the fast path (which
`serialize` takes) and the general odometer path forced at any split point
`n` produce identical bytes. -/
theorem claim2_canonical_and_fastpath :
    (∀ (machineEnd : ThriftTensorEndianness) (dtype : ThriftTensorDataType)
        (elementSize : Nat) (sizes : List Nat) (strides₁ strides₂ : List Int)
        (data₁ data₂ : IOBuf) (sharing₁ sharing₂ : SharingMode),
      data₁.chained = false → data₂.chained = false →
      (strides₁ = [] ∨ strides₁.length = sizes.length) →
      (strides₂ = [] ∨ strides₂.length = sizes.length) →
      (∀ s ∈ sizes, 0 < s) → (∀ s ∈ sizes, s < uint64Mod) →
      viewInBounds data₁.bytes.length elementSize sizes strides₁ →
      viewInBounds data₂.bytes.length elementSize sizes strides₂ →
      logicalBytes data₁.bytes elementSize sizes strides₁
        = logicalBytes data₂.bytes elementSize sizes strides₂ →
      ∃ r₁ r₂,
        serialize machineEnd sizes strides₁ data₁ dtype elementSize .NATIVE sharing₁
          = .ok r₁
        ∧ serialize machineEnd sizes strides₂ data₂ dtype elementSize .NATIVE sharing₂
          = .ok r₂
        ∧ payloadBytes r₁.out = payloadBytes r₂.out)
    ∧ (∀ (machineEnd : ThriftTensorEndianness) (dtype : ThriftTensorDataType)
        (elementSize : Nat) (sizes : List Nat) (data : IOBuf) (sharing : SharingMode)
        (n : Nat) (mayShare : Bool),
      data.chained = false → 0 < n → n ≤ sizes.length →
      (∀ s ∈ sizes, 0 < s) → (∀ s ∈ sizes, s < uint64Mod) →
      viewInBounds data.bytes.length elementSize sizes (defaultStrides sizes) →
      ∃ r chunks,
        serialize machineEnd sizes (defaultStrides sizes) data dtype elementSize
          .NATIVE sharing = .ok r
        ∧ generalPathChunks sizes (defaultStrides sizes) elementSize data
            ((sizes.drop n).prod) n mayShare = some chunks
        ∧ payloadBytes r.out = (chunks.map Chunk.bytes).flatten) := by
  constructor
  · intro machineEnd dtype elementSize sizes strides₁ strides₂ data₁ data₂ sharing₁
      sharing₂ hc₁ hc₂ hs₁ hs₂ hpos hbound hin₁ hin₂ hsame
    obtain ⟨r₁, hok₁, hpay₁, _⟩ := serialize_payload_eq_logical machineEnd sizes strides₁
      data₁ dtype elementSize .NATIVE sharing₁ hc₁ (by simp) hs₁ hpos hbound hin₁
    obtain ⟨r₂, hok₂, hpay₂, _⟩ := serialize_payload_eq_logical machineEnd sizes strides₂
      data₂ dtype elementSize .NATIVE sharing₂ hc₂ (by simp) hs₂ hpos hbound hin₂
    exact ⟨r₁, r₂, hok₁, hok₂, by rw [hpay₁, hpay₂, hsame]⟩
  · intro machineEnd dtype elementSize sizes data sharing n mayShare hc hn hns hpos
      hbound hin
    obtain ⟨r, hok, hpay, _⟩ := serialize_payload_eq_logical machineEnd sizes
      (defaultStrides sizes) data dtype elementSize .NATIVE sharing hc (by simp)
      (Or.inr (defaultStrides_length sizes)) hpos hbound hin
    obtain ⟨chunks, hchunks, hflat⟩ := forcedGeneral_eq_logical sizes elementSize data n
      mayShare hn hns hpos hbound hin
    exact ⟨r, chunks, hok, hchunks, by rw [hpay, hflat]⟩

/-- C2 (witness): column-major `([2,2], [1,2])` over `[1,2,3,4]` and
row-major `([2,2], [2,1])` over `[1,3,2,4]` have the same logical content and
serialize to the same payload; and over `([2,3],` implicit strides`)` the
fast path equals the odometer forced at split 1. -/
theorem claim2_canonical_and_fastpath_witness :
    (logicalBytes [1, 2, 3, 4] 1 [2, 2] [1, 2]
        = logicalBytes [1, 3, 2, 4] 1 [2, 2] [2, 1])
    ∧ (∃ r₁ r₂,
        serialize .LITTLE [2, 2] [1, 2] ⟨false, true, [1, 2, 3, 4]⟩ .BYTE 1 .NATIVE
          .SHARE_NONE = .ok r₁
        ∧ serialize .LITTLE [2, 2] [2, 1] ⟨false, true, [1, 3, 2, 4]⟩ .BYTE 1 .NATIVE
          .SHARE_ALL = .ok r₂
        ∧ payloadBytes r₁.out = payloadBytes r₂.out)
    ∧ (∃ r chunks,
        serialize .LITTLE [2, 3] (defaultStrides [2, 3])
          ⟨false, true, [0, 1, 2, 3, 4, 5]⟩ .BYTE 1 .NATIVE .SHARE_NONE = .ok r
        ∧ generalPathChunks [2, 3] (defaultStrides [2, 3]) 1
            ⟨false, true, [0, 1, 2, 3, 4, 5]⟩ ((([2, 3] : List Nat).drop 1).prod) 1 false
          = some chunks
        ∧ payloadBytes r.out = (chunks.map Chunk.bytes).flatten) :=
  ⟨by decide,
   claim2_canonical_and_fastpath.1 .LITTLE .BYTE 1 [2, 2] [1, 2] [2, 1]
     ⟨false, true, [1, 2, 3, 4]⟩ ⟨false, true, [1, 3, 2, 4]⟩ .SHARE_NONE .SHARE_ALL
     rfl rfl (by decide) (by decide) (by decide) (by decide) (by decide) (by decide)
     (by decide),
   claim2_canonical_and_fastpath.2 .LITTLE .BYTE 1 [2, 3]
     ⟨false, true, [0, 1, 2, 3, 4, 5]⟩ .SHARE_NONE 1 false rfl (by decide) (by decide)
     (by decide) (by decide) (by decide)⟩

/-- C3: the contiguity analysis. For non-empty strides of matching length,
`firstContiguousDim` and `contiguousSize` (in elements) satisfy: every
dimension from `firstContiguousDim` on has exactly the implicit row-major
stride; `contiguousSize` is the product of those trailing sizes; the scan is
maximal (the next-outer stride, if any, mismatches the expected value); and
the leading-size product times the run size is the total element count. When
strides is empty the whole array is one contiguous run. -/
theorem claim3_contiguity_analysis (sizes : List Nat) (strides : List Int)
    (hne : strides ≠ []) (hlen : strides.length = sizes.length) :
    (computeContiguity sizes strides).1 ≤ sizes.length
    ∧ (computeContiguity sizes strides).2
        = (sizes.drop (computeContiguity sizes strides).1).prod
    ∧ (∀ d, (computeContiguity sizes strides).1 ≤ d → d < sizes.length →
        strides.getD d 0 = ((sizes.drop (d + 1)).prod : Int))
    ∧ (0 < (computeContiguity sizes strides).1 →
        strides.getD ((computeContiguity sizes strides).1 - 1) 0
          ≠ (((computeContiguity sizes strides).2 : Nat) : Int))
    ∧ (sizes.take (computeContiguity sizes strides).1).prod
        * (computeContiguity sizes strides).2 = sizes.prod
    ∧ computeContiguity sizes [] = (0, sizes.prod) := by
  obtain ⟨h1, h2, h3, h4⟩ := computeContiguity_spec sizes strides hne hlen
  refine ⟨h1, h2, h3, h4, ?_, by simp [computeContiguity]⟩
  rw [h2, ← List.prod_append, List.take_append_drop]

/-- C3 (witness): `sizes [4,2,3]`, `strides [7,3,1]` — dimensions 1 and 2 are
absorbed (`contiguousSize = 6`), dimension 0 mismatches (7 ≠ 6), so
`firstContiguousDim = 1`. -/
theorem claim3_contiguity_analysis_witness :
    (([7, 3, 1] : List Int) ≠ [] ∧ ([7, 3, 1] : List Int).length
        = ([4, 2, 3] : List Nat).length)
    ∧ ((computeContiguity [4, 2, 3] [7, 3, 1]).1 ≤ ([4, 2, 3] : List Nat).length
      ∧ (computeContiguity [4, 2, 3] [7, 3, 1]).2
          = (([4, 2, 3] : List Nat).drop (computeContiguity [4, 2, 3] [7, 3, 1]).1).prod
      ∧ (∀ d, (computeContiguity [4, 2, 3] [7, 3, 1]).1 ≤ d
            → d < ([4, 2, 3] : List Nat).length →
          ([7, 3, 1] : List Int).getD d 0
            = ((([4, 2, 3] : List Nat).drop (d + 1)).prod : Int))
      ∧ (0 < (computeContiguity [4, 2, 3] [7, 3, 1]).1 →
          ([7, 3, 1] : List Int).getD ((computeContiguity [4, 2, 3] [7, 3, 1]).1 - 1) 0
            ≠ (((computeContiguity [4, 2, 3] [7, 3, 1]).2 : Nat) : Int))
      ∧ (([4, 2, 3] : List Nat).take (computeContiguity [4, 2, 3] [7, 3, 1]).1).prod
          * (computeContiguity [4, 2, 3] [7, 3, 1]).2 = ([4, 2, 3] : List Nat).prod
      ∧ computeContiguity [4, 2, 3] [] = (0, ([4, 2, 3] : List Nat).prod))
    ∧ computeContiguity [4, 2, 3] [7, 3, 1] = (1, 6) :=
  ⟨⟨by decide, by decide⟩,
   claim3_contiguity_analysis [4, 2, 3] [7, 3, 1] (by decide) (by decide),
   by decide⟩


/-- C4: in the general (odometer) path a run is zero-copy aliased iff the
sharing mode permits it and the run length reaches
`kMinCloneSize = 4096` bytes: never under `NONE`, under `MANAGED_ONLY` only
for an exclusively-owned (`isManagedOne`) source, always length-gated; a
4095-byte run is always copied, a 4096-byte run is aliased under `ALL`; and
every chunk a successful general-path `serialize` emits carries exactly this
decision, with run length `contiguousSize` bytes. -/
theorem claim4_clone_threshold :
    kMinCloneSize = 4096
    ∧ (∀ (sharing : SharingMode) (data : IOBuf) (len : Nat),
        emitShared (computeMayShare sharing data) len = true
          ↔ (kMinCloneSize ≤ len
              ∧ (sharing = .SHARE_ALL
                ∨ (sharing = .SHARE_IOBUF_MANAGED ∧ data.managedOne = true))))
    ∧ (∀ (data : IOBuf) (len : Nat),
        emitShared (computeMayShare .SHARE_NONE data) len = false)
    ∧ (∀ (sharing : SharingMode) (data : IOBuf),
        emitShared (computeMayShare sharing data) 4095 = false)
    ∧ (∀ (data : IOBuf), emitShared (computeMayShare .SHARE_ALL data) 4096 = true)
    ∧ (∀ (machineEnd : ThriftTensorEndianness) (sizes : List Nat) (strides : List Int)
        (data : IOBuf) (dtype : ThriftTensorDataType) (elementSize : Nat)
        (endianness : ThriftTensorEndianness) (sharing : SharingMode)
        (r : SerializeResult),
        serialize machineEnd sizes strides data dtype elementSize endianness sharing
          = .ok r →
        sizes.length ≠ 0 → (computeContiguity sizes strides).1 ≠ 0 →
        ∀ ch ∈ r.out.data,
          ch.shared = emitShared (computeMayShare sharing data)
              ((computeContiguity sizes strides).2 * elementSize)
          ∧ ch.bytes.length = (computeContiguity sizes strides).2 * elementSize) := by
  refine ⟨by norm_num [kMinCloneSize], ?_, ?_, ?_, ?_, ?_⟩
  · intro sharing data len
    cases sharing
    all_goals simp [emitShared, computeMayShare, kMinCloneSize]
    all_goals tauto
  · intro data len
    simp [emitShared, computeMayShare]
  · intro sharing data
    cases sharing <;> simp [emitShared, computeMayShare, kMinCloneSize]
  · intro data
    simp [emitShared, computeMayShare, kMinCloneSize]
  · intro machineEnd sizes strides data dtype elementSize endianness sharing r hok hsz
      hfcd ch hch
    obtain ⟨_, _, _, _, _, _, _, _, hgen⟩ := serialize_ok_inv machineEnd sizes strides
      data dtype elementSize endianness sharing r hok
    obtain ⟨_, hsome⟩ := hgen hsz hfcd
    exact generalPathChunks_inv sizes strides elementSize data
      (computeContiguity sizes strides).2 (computeContiguity sizes strides).1
      (computeMayShare sharing data) r.out.data hsome ch hch

/-- C5 (counterexample): the zero-size shape `[0,2]` with strides `[3,1]` is
not handled by the empty-payload path (that path requires `ndims == 0`): the
contiguity analysis yields `firstContiguousDim = 1 ≠ 0`, i.e. the input is
headed for the general traversal, and the call aborts on
`DCHECK_LE(contiguousSize, dataSize)` (2 > 0); a release build would instead
spin the odometer through a zero-radix dimension, wrapping its 64-bit
counter over out-of-bounds runs, rather than terminating in input-bounded
time. -/
theorem claim5_counterexample :
    ([0, 2] : List Nat).length ≠ 0
    ∧ (computeContiguity [0, 2] [3, 1]).1 ≠ 0
    ∧ serialize .LITTLE [0, 2] [3, 1] ⟨false, true, [9, 9]⟩ .BYTE 1 .NATIVE .SHARE_ALL
        = .error .contiguousExceedsData := by
  refine ⟨by decide, by decide, by decide⟩

/-- C5 (amended): `serialize` completes normally for every consistent input
whose dimension sizes are all positive, and the `ndims == 0` (scalar-shaped)
input is valid and handled by the explicit empty-payload path; zero-size
shapes are not given special handling (see the counterexample). -/
theorem claim5_termination (machineEnd : ThriftTensorEndianness) (sizes : List Nat)
    (strides : List Int) (data : IOBuf) (dtype : ThriftTensorDataType)
    (elementSize : Nat) (sharing : SharingMode)
    (hchain : data.chained = false)
    (hstr : strides = [] ∨ strides.length = sizes.length) :
    (sizes = [] →
      serialize machineEnd sizes strides data dtype elementSize .NATIVE sharing
        = .ok ⟨⟨dtype, machineEnd, [], []⟩, emptyIOBuf⟩)
    ∧ ((∀ s ∈ sizes, 0 < s) → (∀ s ∈ sizes, s < uint64Mod) →
        viewInBounds data.bytes.length elementSize sizes strides →
        ∃ r, serialize machineEnd sizes strides data dtype elementSize .NATIVE sharing
          = .ok r) := by
  constructor
  · intro h
    subst h
    have hstr' : strides = [] := by
      rcases hstr with h | h
      · exact h
      · exact List.length_eq_zero.mp (by simpa using h)
    exact serialize_eq_empty machineEnd strides data dtype elementSize .NATIVE sharing
      hchain (by simp) hstr'
  · intro hpos hbound hin
    obtain ⟨r, hok, _⟩ := serialize_payload_eq_logical machineEnd sizes strides data
      dtype elementSize .NATIVE sharing hchain (by simp) hstr hpos hbound hin
    exact ⟨r, hok⟩

/-- C5 (witness): a positive-size strided input completes, and the
scalar-shaped input takes the empty-payload path. -/
theorem claim5_termination_witness :
    ((⟨false, true, [5, 6]⟩ : IOBuf).chained = false
      ∧ (([1] : List Int) = [] ∨ ([1] : List Int).length = ([2] : List Nat).length))
    ∧ ((([2] : List Nat) = [] →
        serialize .LITTLE [2] [1] ⟨false, true, [5, 6]⟩ .BYTE 1 .NATIVE .SHARE_NONE
          = .ok ⟨⟨.BYTE, .LITTLE, [], []⟩, emptyIOBuf⟩)
      ∧ ((∀ s ∈ ([2] : List Nat), 0 < s) → (∀ s ∈ ([2] : List Nat), s < uint64Mod) →
          viewInBounds (⟨false, true, [5, 6]⟩ : IOBuf).bytes.length 1 [2] [1] →
          ∃ r, serialize .LITTLE [2] [1] ⟨false, true, [5, 6]⟩ .BYTE 1 .NATIVE
            .SHARE_NONE = .ok r)) :=
  ⟨⟨rfl, by decide⟩,
   claim5_termination .LITTLE [2] [1] ⟨false, true, [5, 6]⟩ .BYTE 1 .SHARE_NONE rfl
     (by decide)⟩

/-- C6: each listed caller-contract violation is a fatal assertion, modelled
as an error value: a chained source buffer; an explicit non-native byte
order; a shape/stride length mismatch; an out-of-bounds clone range in
`partialCloneOne`. A byte order of `NATIVE` is resolved to the machine's
order (it is never the endianness error, and a successful call records the
machine order on the wire). -/
theorem claim6_fatal_assertions :
    (∀ (machineEnd : ThriftTensorEndianness) (sizes : List Nat) (strides : List Int)
        (data : IOBuf) (dtype : ThriftTensorDataType) (elementSize : Nat)
        (endianness : ThriftTensorEndianness) (sharing : SharingMode),
      data.chained = true →
      serialize machineEnd sizes strides data dtype elementSize endianness sharing
        = .error .chainedBuffer)
    ∧ (∀ (machineEnd : ThriftTensorEndianness) (sizes : List Nat) (strides : List Int)
        (data : IOBuf) (dtype : ThriftTensorDataType) (elementSize : Nat)
        (endianness : ThriftTensorEndianness) (sharing : SharingMode),
      data.chained = false → endianness ≠ .NATIVE → endianness ≠ machineEnd →
      serialize machineEnd sizes strides data dtype elementSize endianness sharing
        = .error .nonNativeEndianness)
    ∧ (∀ (machineEnd : ThriftTensorEndianness) (sizes : List Nat) (strides : List Int)
        (data : IOBuf) (dtype : ThriftTensorDataType) (elementSize : Nat)
        (sharing : SharingMode),
      serialize machineEnd sizes strides data dtype elementSize .NATIVE sharing
        ≠ .error .nonNativeEndianness)
    ∧ (∀ (machineEnd : ThriftTensorEndianness) (sizes : List Nat) (strides : List Int)
        (data : IOBuf) (dtype : ThriftTensorDataType) (elementSize : Nat)
        (sharing : SharingMode) (r : SerializeResult),
      serialize machineEnd sizes strides data dtype elementSize .NATIVE sharing
        = .ok r →
      r.out.endianness = machineEnd)
    ∧ (∀ (machineEnd : ThriftTensorEndianness) (sizes : List Nat) (strides : List Int)
        (data : IOBuf) (dtype : ThriftTensorDataType) (elementSize : Nat)
        (endianness : ThriftTensorEndianness) (sharing : SharingMode),
      data.chained = false →
      (if endianness = ThriftTensorEndianness.NATIVE then machineEnd else endianness)
        = machineEnd →
      strides ≠ [] → strides.length ≠ sizes.length →
      serialize machineEnd sizes strides data dtype elementSize endianness sharing
        = .error .strideLengthMismatch)
    ∧ (∀ (buf : IOBuf) (offset length : Nat),
      cloneOneRange buf offset length = .error .cloneOutOfRange
        ↔ buf.bytes.length < offset + length) := by
  refine ⟨?_, ?_, ?_, ?_, ?_, ?_⟩
  · intro machineEnd sizes strides data dtype elementSize endianness sharing h
    exact (serialize_chained_iff machineEnd sizes strides data dtype elementSize
      endianness sharing).mpr h
  · intro machineEnd sizes strides data dtype elementSize endianness sharing h1 h2 h3
    refine (serialize_nonNative_iff machineEnd sizes strides data dtype elementSize
      endianness sharing).mpr ⟨h1, ?_⟩
    rw [if_neg h2]
    exact h3
  · intro machineEnd sizes strides data dtype elementSize sharing h
    obtain ⟨_, habs⟩ := (serialize_nonNative_iff machineEnd sizes strides data dtype
      elementSize .NATIVE sharing).mp h
    simp at habs
  · intro machineEnd sizes strides data dtype elementSize sharing r hok
    exact (serialize_ok_inv machineEnd sizes strides data dtype elementSize .NATIVE
      sharing r hok).2.2.2.1
  · intro machineEnd sizes strides data dtype elementSize endianness sharing h1 h2 h3 h4
    exact (serialize_strideLen_iff machineEnd sizes strides data dtype elementSize
      endianness sharing).mpr ⟨h1, h2, h3, h4⟩
  · intro buf offset length
    unfold cloneOneRange
    split
    · rename_i h
      simp
      omega
    · rename_i h
      simp
      omega

/-- C7: `ndims == 0` serializes, for every sharing mode and data type, to an
output with empty sizes and a zero-length payload, and the source buffer is
invalidated (reset to a fresh empty buffer). -/
theorem claim7_empty_serialize (machineEnd : ThriftTensorEndianness) (data : IOBuf)
    (dtype : ThriftTensorDataType) (elementSize : Nat) (sharing : SharingMode)
    (hchain : data.chained = false) :
    serialize machineEnd [] [] data dtype elementSize .NATIVE sharing
      = .ok ⟨⟨dtype, machineEnd, [], []⟩, emptyIOBuf⟩
    ∧ payloadBytes ⟨dtype, machineEnd, [], []⟩ = [] :=
  ⟨serialize_eq_empty machineEnd [] data dtype elementSize .NATIVE sharing hchain
    (by simp) rfl, rfl⟩

/-- C7 (witness). -/
theorem claim7_empty_serialize_witness :
    (⟨false, true, [1, 2]⟩ : IOBuf).chained = false
    ∧ (serialize .BIG [] [] ⟨false, true, [1, 2]⟩ .DOUBLE 8 .NATIVE .SHARE_IOBUF_MANAGED
        = .ok ⟨⟨.DOUBLE, .BIG, [], []⟩, emptyIOBuf⟩
      ∧ payloadBytes ⟨.DOUBLE, .BIG, [], []⟩ = []) :=
  ⟨rfl, claim7_empty_serialize .BIG ⟨false, true, [1, 2]⟩ .DOUBLE 8 .SHARE_IOBUF_MANAGED
    rfl⟩

/-- C8: after a successful `serialize`, the source buffer is invalidated
exactly on the fast path (`firstContiguousDim == 0`, including `ndims == 0`),
its contents having moved into the output, and is returned unmodified on the
general path. -/
theorem claim8_buffer_state (machineEnd : ThriftTensorEndianness) (sizes : List Nat)
    (strides : List Int) (data : IOBuf) (dtype : ThriftTensorDataType)
    (elementSize : Nat) (endianness : ThriftTensorEndianness) (sharing : SharingMode)
    (r : SerializeResult)
    (hok : serialize machineEnd sizes strides data dtype elementSize endianness sharing
      = .ok r) :
    ((sizes.length = 0 ∨ (computeContiguity sizes strides).1 = 0) →
      r.dataAfter = emptyIOBuf)
    ∧ (sizes.length ≠ 0 → (computeContiguity sizes strides).1 ≠ 0 →
      r.dataAfter = data) := by
  obtain ⟨_, _, _, _, _, _, hempty, hfast, hgen⟩ := serialize_ok_inv machineEnd sizes
    strides data dtype elementSize endianness sharing r hok
  constructor
  · intro h
    rcases h with h | h
    · exact (hempty h).2
    · by_cases hsz : sizes.length = 0
      · exact (hempty hsz).2
      · exact (hfast hsz h).1
  · intro h1 h2
    exact (hgen h1 h2).1

/-- C8 (witness): fast path on `[4]` with implicit strides — the buffer is
invalidated and the trimmed bytes move into the output. -/
theorem claim8_buffer_state_witness :
    serialize .LITTLE [4] [] ⟨false, true, [1, 2, 3, 4, 9]⟩ .BYTE 1 .NATIVE .SHARE_NONE
      = .ok ⟨⟨.BYTE, .LITTLE, [4], [⟨false, [1, 2, 3, 4]⟩]⟩, emptyIOBuf⟩
    ∧ (((([4] : List Nat).length = 0 ∨ (computeContiguity [4] []).1 = 0) →
        (⟨⟨.BYTE, .LITTLE, [4], [⟨false, [1, 2, 3, 4]⟩]⟩, emptyIOBuf⟩
          : SerializeResult).dataAfter = emptyIOBuf)
      ∧ (([4] : List Nat).length ≠ 0 → (computeContiguity [4] []).1 ≠ 0 →
        (⟨⟨.BYTE, .LITTLE, [4], [⟨false, [1, 2, 3, 4]⟩]⟩, emptyIOBuf⟩
          : SerializeResult).dataAfter = ⟨false, true, [1, 2, 3, 4, 9]⟩)) :=
  ⟨by decide,
   claim8_buffer_state .LITTLE [4] [] ⟨false, true, [1, 2, 3, 4, 9]⟩ .BYTE 1 .NATIVE
     .SHARE_NONE ⟨⟨.BYTE, .LITTLE, [4], [⟨false, [1, 2, 3, 4]⟩]⟩, emptyIOBuf⟩
     (by decide)⟩

/-- C9 (counterexample): the outcome of `serialize` does depend on the
sharing mode. Shape `[1,4096]` with strides `[5000,1]` over an empty buffer
reaches the general path with one 4096-byte run at offset 0: under
`SHARE_ALL` the run length reaches `kMinCloneSize`, so the shared-emit
branch calls `partialCloneOne`, whose
`DCHECK_LE(offset + length, buf.length())` fails (4096 > 0); under
`SHARE_NONE` the copy branch performs no bounds check and succeeds, reading
junk. The two payload outcomes differ. -/
theorem claim9_counterexample :
    serialize .LITTLE [1, 4096] [5000, 1] ⟨false, true, []⟩ .BYTE 1 .NATIVE .SHARE_ALL
        = .error .cloneOutOfRange
    ∧ (serialize .LITTLE [1, 4096] [5000, 1] ⟨false, true, []⟩ .BYTE 1 .NATIVE
        .SHARE_NONE).isOk = true
    ∧ (serialize .LITTLE [1, 4096] [5000, 1] ⟨false, true, []⟩ .BYTE 1 .NATIVE
          .SHARE_ALL).map (fun r => payloadBytes r.out)
      ≠ (serialize .LITTLE [1, 4096] [5000, 1] ⟨false, true, []⟩ .BYTE 1 .NATIVE
          .SHARE_NONE).map (fun r => payloadBytes r.out) := by
  have hAll : serialize .LITTLE [1, 4096] [5000, 1] ⟨false, true, []⟩ .BYTE 1 .NATIVE
      .SHARE_ALL = .error .cloneOutOfRange := by decide
  have hNone : (serialize .LITTLE [1, 4096] [5000, 1] ⟨false, true, []⟩ .BYTE 1 .NATIVE
      .SHARE_NONE).isOk = true := by rfl
  refine ⟨hAll, hNone, ?_⟩
  intro h
  rw [hAll] at h
  revert hNone h
  generalize serialize .LITTLE [1, 4096] [5000, 1] ⟨false, true, []⟩ .BYTE 1 .NATIVE
    .SHARE_NONE = z
  cases z with
  | ok r => intro _ hh; exact absurd hh (by simp [Except.map])
  | error e => intro hbad _; exact absurd hbad (by simp [Except.isOk, Except.toBool])

/-- C9 (amended): restricted to consistent in-bounds views with positive
dimension sizes — where every run the loop reads lies inside the buffer, so
`partialCloneOne`'s bounds assertion cannot fire — `serialize` succeeds under
every sharing mode with byte-identical chunks, payload, header fields and
final buffer state; the mode influences only the chunks' copy/alias flags.
Unrestricted, a shared-eligible out-of-bounds run aborts while the copy
branch does not (see the counterexample). -/
theorem claim9_sharing_transparency (machineEnd : ThriftTensorEndianness)
    (sizes : List Nat) (strides : List Int) (data : IOBuf)
    (dtype : ThriftTensorDataType) (elementSize : Nat) (sh₁ sh₂ : SharingMode)
    (hchain : data.chained = false)
    (hstr : strides = [] ∨ strides.length = sizes.length)
    (hpos : ∀ s ∈ sizes, 0 < s)
    (hbound : ∀ s ∈ sizes, s < uint64Mod)
    (hin : viewInBounds data.bytes.length elementSize sizes strides) :
    ∃ r₁ r₂,
      serialize machineEnd sizes strides data dtype elementSize .NATIVE sh₁ = .ok r₁
      ∧ serialize machineEnd sizes strides data dtype elementSize .NATIVE sh₂ = .ok r₂
      ∧ r₁.out.data.map Chunk.bytes = r₂.out.data.map Chunk.bytes
      ∧ payloadBytes r₁.out = payloadBytes r₂.out
      ∧ r₁.out.sizes = r₂.out.sizes ∧ r₁.out.dataType = r₂.out.dataType
      ∧ r₁.out.endianness = r₂.out.endianness ∧ r₁.dataAfter = r₂.dataAfter := by
  obtain ⟨r₁, hok₁, hpay₁, hsz₁, hdt₁, hend₁, hch₁⟩ := serialize_payload_eq_logical
    machineEnd sizes strides data dtype elementSize .NATIVE sh₁ hchain (by simp) hstr
    hpos hbound hin
  obtain ⟨r₂, hok₂, hpay₂, hsz₂, hdt₂, hend₂, hch₂⟩ := serialize_payload_eq_logical
    machineEnd sizes strides data dtype elementSize .NATIVE sh₂ hchain (by simp) hstr
    hpos hbound hin
  refine ⟨r₁, r₂, hok₁, hok₂, hch₁.trans hch₂.symm, hpay₁.trans hpay₂.symm,
    hsz₁.trans hsz₂.symm, hdt₁.trans hdt₂.symm, hend₁.trans hend₂.symm, ?_⟩
  obtain ⟨_, _, _, _, _, _, hempty₁, hfast₁, hgen₁⟩ := serialize_ok_inv machineEnd sizes
    strides data dtype elementSize .NATIVE sh₁ r₁ hok₁
  obtain ⟨_, _, _, _, _, _, hempty₂, hfast₂, hgen₂⟩ := serialize_ok_inv machineEnd sizes
    strides data dtype elementSize .NATIVE sh₂ r₂ hok₂
  by_cases hszn : sizes.length = 0
  · rw [(hempty₁ hszn).2, (hempty₂ hszn).2]
  · by_cases hfcd : (computeContiguity sizes strides).1 = 0
    · rw [(hfast₁ hszn hfcd).1, (hfast₂ hszn hfcd).1]
    · rw [(hgen₁ hszn hfcd).1, (hgen₂ hszn hfcd).1]

/-- C9 (witness): the `[2,3]` × `[1,2]` view under `SHARE_ALL` versus
`SHARE_NONE`. -/
theorem claim9_sharing_transparency_witness :
    ((⟨false, true, [10, 11, 12, 13, 14, 15]⟩ : IOBuf).chained = false
      ∧ (([1, 2] : List Int) = []
          ∨ ([1, 2] : List Int).length = ([2, 3] : List Nat).length)
      ∧ (∀ s ∈ ([2, 3] : List Nat), 0 < s)
      ∧ (∀ s ∈ ([2, 3] : List Nat), s < uint64Mod)
      ∧ viewInBounds (⟨false, true, [10, 11, 12, 13, 14, 15]⟩ : IOBuf).bytes.length 1
          [2, 3] [1, 2])
    ∧ (∃ r₁ r₂,
        serialize .LITTLE [2, 3] [1, 2] ⟨false, true, [10, 11, 12, 13, 14, 15]⟩ .BYTE 1
          .NATIVE .SHARE_ALL = .ok r₁
        ∧ serialize .LITTLE [2, 3] [1, 2] ⟨false, true, [10, 11, 12, 13, 14, 15]⟩ .BYTE
          1 .NATIVE .SHARE_NONE = .ok r₂
        ∧ r₁.out.data.map Chunk.bytes = r₂.out.data.map Chunk.bytes
        ∧ payloadBytes r₁.out = payloadBytes r₂.out
        ∧ r₁.out.sizes = r₂.out.sizes ∧ r₁.out.dataType = r₂.out.dataType
        ∧ r₁.out.endianness = r₂.out.endianness ∧ r₁.dataAfter = r₂.dataAfter) :=
  ⟨⟨rfl, by decide, by decide, by decide, by decide⟩,
   claim9_sharing_transparency .LITTLE [2, 3] [1, 2]
     ⟨false, true, [10, 11, 12, 13, 14, 15]⟩ .BYTE 1 .SHARE_ALL .SHARE_NONE rfl
     (by decide) (by decide) (by decide) (by decide)⟩

/-- C10: the tensor rebuilt at deserialize time always has storage offset `0`
and a null (implicit row-major) strides argument, whatever view was
serialized — the wire record carries no strides or offset at all. -/
theorem claim10_deserialize_implicit (t : ThriftTensor) (dtype : ThriftTensorDataType)
    (sharing : SharingMode) (h : t.dataType = dtype) :
    deserializeTH t dtype sharing = .ok ⟨payloadBytes t, 0, t.sizes, none⟩ := by
  unfold deserializeTH deserialize
  rw [if_pos h]
  rfl

/-- C10 (witness). -/
theorem claim10_deserialize_implicit_witness :
    (⟨.BYTE, .LITTLE, [2, 3], [⟨false, [1, 2, 3, 4, 5, 6]⟩]⟩
      : ThriftTensor).dataType = .BYTE
    ∧ deserializeTH ⟨.BYTE, .LITTLE, [2, 3], [⟨false, [1, 2, 3, 4, 5, 6]⟩]⟩ .BYTE
        .SHARE_ALL
      = .ok ⟨payloadBytes ⟨.BYTE, .LITTLE, [2, 3], [⟨false, [1, 2, 3, 4, 5, 6]⟩]⟩, 0,
          [2, 3], none⟩ :=
  ⟨rfl, claim10_deserialize_implicit
    ⟨.BYTE, .LITTLE, [2, 3], [⟨false, [1, 2, 3, 4, 5, 6]⟩]⟩ .BYTE .SHARE_ALL rfl⟩


/-- C4 (witness): the `[2,3]` × `[1,2]` view under `SHARE_ALL` takes the
general path with 1-byte runs, so every emitted chunk is copied
(1 < 4096). -/
theorem claim4_clone_threshold_witness :
    (serialize .LITTLE [2, 3] [1, 2] ⟨false, true, [10, 11, 12, 13, 14, 15]⟩ .BYTE 1
        .NATIVE .SHARE_ALL
      = .ok ⟨⟨.BYTE, .LITTLE, [2, 3],
          [⟨false, [10]⟩, ⟨false, [12]⟩, ⟨false, [14]⟩, ⟨false, [11]⟩, ⟨false, [13]⟩,
            ⟨false, [15]⟩]⟩, ⟨false, true, [10, 11, 12, 13, 14, 15]⟩⟩)
    ∧ (∀ ch ∈ ([⟨false, [10]⟩, ⟨false, [12]⟩, ⟨false, [14]⟩, ⟨false, [11]⟩,
          ⟨false, [13]⟩, ⟨false, [15]⟩] : List Chunk),
        ch.shared = emitShared
            (computeMayShare .SHARE_ALL ⟨false, true, [10, 11, 12, 13, 14, 15]⟩)
            ((computeContiguity [2, 3] [1, 2]).2 * 1)
        ∧ ch.bytes.length = (computeContiguity [2, 3] [1, 2]).2 * 1) :=
  ⟨by decide,
   claim4_clone_threshold.2.2.2.2.2 .LITTLE [2, 3] [1, 2]
     ⟨false, true, [10, 11, 12, 13, 14, 15]⟩ .BYTE 1 .NATIVE .SHARE_ALL
     ⟨⟨.BYTE, .LITTLE, [2, 3],
        [⟨false, [10]⟩, ⟨false, [12]⟩, ⟨false, [14]⟩, ⟨false, [11]⟩, ⟨false, [13]⟩,
          ⟨false, [15]⟩]⟩, ⟨false, true, [10, 11, 12, 13, 14, 15]⟩⟩
     (by decide) (by decide) (by decide)⟩

/-- C6 (witness): each contract violation at a concrete input. -/
theorem claim6_fatal_assertions_witness :
    serialize .LITTLE [2] [1] ⟨true, true, [5, 6]⟩ .BYTE 1 .NATIVE .SHARE_NONE
      = .error .chainedBuffer
    ∧ serialize .LITTLE [2] [1] ⟨false, true, [5, 6]⟩ .BYTE 1 .BIG .SHARE_NONE
      = .error .nonNativeEndianness
    ∧ serialize .LITTLE [2] [1, 2] ⟨false, true, [5, 6]⟩ .BYTE 1 .NATIVE .SHARE_NONE
      = .error .strideLengthMismatch
    ∧ (cloneOneRange ⟨false, true, [5, 6]⟩ 1 2 = .error .cloneOutOfRange
        ↔ (⟨false, true, [5, 6]⟩ : IOBuf).bytes.length < 1 + 2) :=
  ⟨claim6_fatal_assertions.1 .LITTLE [2] [1] ⟨true, true, [5, 6]⟩ .BYTE 1 .NATIVE
     .SHARE_NONE rfl,
   claim6_fatal_assertions.2.1 .LITTLE [2] [1] ⟨false, true, [5, 6]⟩ .BYTE 1 .BIG
     .SHARE_NONE rfl (by decide) (by decide),
   claim6_fatal_assertions.2.2.2.2.1 .LITTLE [2] [1, 2] ⟨false, true, [5, 6]⟩ .BYTE 1
     .NATIVE .SHARE_NONE rfl (by decide) (by decide) (by decide),
   claim6_fatal_assertions.2.2.2.2.2 ⟨false, true, [5, 6]⟩ 1 2⟩

end Thpp
